import Mathlib

/-!
# Ready queue, stealable deque and mutex of the fiber scheduling core

Shallow embedding of

* `boost/fiber/detail/context_queue.hpp` (`detail::context_queue`),
* `boost/fiber/algo/work_stealing.hpp` (`work_stealing::circular_buffer`,
  `work_stealing::steal`, `work_stealing::has_ready_fibers`),
* `src/mutex.cpp` (`mutex::lock`, `mutex::try_lock`, `mutex::unlock`).

Conventions of the embedding.

* A `context *` is an `Option context`; `none` is `nullptr`.
* A heap array `slot_type[]` is a `List slot`; an element that was allocated by
  `new[]` and never written is `slot.indeterminate`.
* Every operation returns an `Option`; `none` stands for an execution that has
  no defined behaviour in C++ (an index outside the array, reading an
  indeterminate element, `% 0`, calling a member through `nullptr`).
* `std::size_t` values are natural numbers.  An array of `capacity_` pointers
  exists in memory, so `capacity_ < 2 ^ 61` on a 64 bit target and none of the
  sums and products below wraps; a subtraction that would wrap is reported as
  undefined, because the source passes its result to `memcpy` as a length.
* The spin locks only serialise the calls; the embedding is the serialised
  behaviour.  What a mutex operation does to the execution-unit abstraction
  (`suspend`, `yield`, `schedule`) is recorded as a list of `call`s.
-/

namespace Fiber

/-! ## Handles and storage -/

/-- Identity of an execution unit (the address of a `context` object). -/
abbrev context := Nat

/-- A `context *`; `none` is `nullptr`. -/
abbrev context_ptr := Option context

/-- One element of a `slot_type[]` array: either never written since `new[]`, or
holding a pointer. -/
inductive slot where
  | indeterminate : slot
  | value (p : context_ptr) : slot
  deriving DecidableEq, Repr

/-- The array `new slot_type[n]`: `n` elements, none of them written. -/
def new_slots (n : Nat) : List slot :=
  List.replicate n slot.indeterminate

/-- The read `a[i]` of a pointer: defined when `i` is inside the array and the element
has been written. -/
def load (a : List slot) (i : Nat) : Option context_ptr :=
  match a[i]? with
  | some (slot.value p) => some p
  | _ => none

/-- The write `a[i] = c`: defined when `i` is inside the array. -/
def store (a : List slot) (i : Nat) (c : context_ptr) : Option (List slot) :=
  if i < a.length then some (a.set i (slot.value c)) else none

/-- The remainder `a % b` on `std::size_t`: not defined for `b = 0`. -/
def umod (a b : Nat) : Option Nat :=
  if b = 0 then none else some (a % b)

/-- The call `std::memcpy( dst + dpos, src + spos, n * sizeof( slot_type))`: defined when
both ranges lie inside their arrays; it copies `n` elements, written or not. -/
def memcpy (dst : List slot) (dpos : Nat) (src : List slot) (spos n : Nat) :
    Option (List slot) :=
  if spos + n ≤ src.length ∧ dpos + n ≤ dst.length then
    some (dst.take dpos ++ (src.drop spos).take n ++ dst.drop (dpos + n))
  else none

/-! ## `detail::context_queue` -/

/-- The data members of `detail::context_queue`. -/
structure context_queue where
  pidx_ : Nat
  cidx_ : Nat
  capacity_ : Nat
  slots_ : List slot
  deriving DecidableEq, Repr

namespace context_queue

/-- The default argument of the constructor. -/
def default_capacity : Nat := 4096

/-- The constructor `context_queue( std::size_t capacity)`. -/
def init (capacity : Nat) : context_queue :=
  { pidx_ := 0, cidx_ := 0, capacity_ := capacity, slots_ := new_slots capacity }

/-- The private member `resize_`.  `capacity_ - cidx_` wraps when
`capacity_ < cidx_`, and `capacity_ - 1` when `capacity_ = 0`; the only caller has
evaluated `% capacity_` before, so neither is a defined execution. -/
def resize_ (q : context_queue) : Option context_queue :=
  if q.capacity_ = 0 ∨ q.capacity_ < q.cidx_ then none
  else do
    let old_slots := q.slots_
    let slots0 := new_slots (2 * q.capacity_)
    let offset := q.capacity_ - q.cidx_
    let slots1 ← memcpy slots0 0 old_slots q.cidx_ offset
    let slots2 ← if 0 < q.cidx_ then memcpy slots1 offset old_slots 0 q.pidx_ else some slots1
    some { pidx_ := q.capacity_ - 1, cidx_ := 0, capacity_ := q.capacity_ * 2, slots_ := slots2 }

/-- The private member `is_full_`. -/
def is_full_ (q : context_queue) : Option Bool := do
  let i ← umod (q.pidx_ + 1) q.capacity_
  some (q.cidx_ == i)

/-- The private member `is_empty_`. -/
def is_empty_ (q : context_queue) : Bool :=
  q.cidx_ == q.pidx_

/-- The member `empty`. -/
def empty (q : context_queue) : Bool :=
  q.is_empty_

/-- The member `push`. -/
def push (c : context_ptr) (q : context_queue) : Option context_queue := do
  let full ← q.is_full_
  let q1 ← if full then q.resize_ else some q
  let slots ← store q1.slots_ q1.pidx_ c
  let i ← umod (q1.pidx_ + 1) q1.capacity_
  some { q1 with slots_ := slots, pidx_ := i }

/-- The member `pop`: the returned pointer and the queue afterwards. -/
def pop (q : context_queue) : Option (context_ptr × context_queue) :=
  if ! q.is_empty_ then do
    let c ← load q.slots_ q.cidx_
    let i ← umod (q.cidx_ + 1) q.capacity_
    some (c, { q with cidx_ := i })
  else some (none, q)

end context_queue

/-! ## `algo::work_stealing::circular_buffer` -/

/-- The data members of `work_stealing::circular_buffer`. -/
structure circular_buffer where
  pidx_ : Nat
  cidx_ : Nat
  capacity_ : Nat
  slots_ : List slot
  deriving DecidableEq, Repr

namespace circular_buffer

/-- The default argument of the constructor, `4*1024`. -/
def default_capacity : Nat := 4 * 1024

/-- The constructor `circular_buffer( std::size_t capacity)`. -/
def init (capacity : Nat) : circular_buffer :=
  { pidx_ := 0, cidx_ := 0, capacity_ := capacity, slots_ := new_slots capacity }

/-- The private member `resize_` (see `context_queue.resize_` for the two wrapping
subtractions). -/
def resize_ (b : circular_buffer) : Option circular_buffer :=
  if b.capacity_ = 0 ∨ b.capacity_ < b.cidx_ then none
  else do
    let old_slots := b.slots_
    let slots0 := new_slots (2 * b.capacity_)
    let offset := b.capacity_ - b.cidx_
    let slots1 ← memcpy slots0 0 old_slots b.cidx_ offset
    let slots2 ← if 0 < b.cidx_ then memcpy slots1 offset old_slots 0 b.pidx_ else some slots1
    some { pidx_ := b.capacity_ - 1, cidx_ := 0, capacity_ := b.capacity_ * 2, slots_ := slots2 }

/-- The private member `is_full_`. -/
def is_full_ (b : circular_buffer) : Option Bool := do
  let i ← umod (b.pidx_ + 1) b.capacity_
  some (b.cidx_ == i)

/-- The member `empty`. -/
def empty (b : circular_buffer) : Bool :=
  b.cidx_ == b.pidx_

/-- The member `push`. -/
def push (c : context_ptr) (b : circular_buffer) : Option circular_buffer := do
  let full ← b.is_full_
  let b1 ← if full then b.resize_ else some b
  let slots ← store b1.slots_ b1.pidx_ c
  let i ← umod (b1.pidx_ + 1) b1.capacity_
  some { b1 with slots_ := slots, pidx_ := i }

/-- The member `pop`: the returned pointer and the buffer afterwards. -/
def pop (b : circular_buffer) : Option (context_ptr × circular_buffer) :=
  if ! b.empty then do
    let c ← load b.slots_ b.cidx_
    let i ← umod (b.cidx_ + 1) b.capacity_
    some (c, { b with cidx_ := i })
  else some (none, b)

/-- The member `steal`: the returned pointer and the buffer afterwards.
`pinned ctx` is `ctx.is_context( type::pinned_context)`; `context::is_context` is declared
in `context.hpp`, outside the embedded files, so the classification is a parameter.
`c->is_context(...)` on `c == nullptr` has no defined behaviour. -/
def steal (pinned : context → Bool) (b : circular_buffer) :
    Option (context_ptr × circular_buffer) :=
  if ! b.empty then do
    let c ← load b.slots_ b.cidx_
    match c with
    | none => none
    | some ctx =>
      if pinned ctx then some (none, b)
      else do
        let i ← umod (b.cidx_ + 1) b.capacity_
        some (c, { b with cidx_ := i })
  else some (none, b)

end circular_buffer

/-! ## `algo::work_stealing` (the members defined in the header) -/

/-- The data members of `work_stealing` that carry scheduling state.  `splk_`, `mtx_`
and `cnd_` only synchronise threads and have no counterpart here. -/
structure work_stealing where
  idx_ : Nat
  max_idx_ : Nat
  rqueue_ : circular_buffer
  flag_ : Bool
  suspend_ : Bool
  deriving DecidableEq, Repr

namespace work_stealing

/-- The member `steal`: `rqueue_.steal()` under `splk_`. -/
def steal (pinned : context → Bool) (w : work_stealing) :
    Option (context_ptr × work_stealing) := do
  let (c, rq) ← w.rqueue_.steal pinned
  some (c, { w with rqueue_ := rq })

/-- The member `has_ready_fibers`: `! rqueue_.empty()` under `splk_`. -/
def has_ready_fibers (w : work_stealing) : Bool :=
  ! w.rqueue_.empty

end work_stealing

/-! ## `mutex` -/

/-- The two `std::errc` codes carried by the `lock_error` exceptions of `mutex.cpp`. -/
inductive errc where
  | resource_deadlock_would_occur : errc
  | operation_not_permitted : errc
  deriving DecidableEq, Repr

/-- A call into the execution-unit abstraction made by a mutex operation. -/
inductive call where
  /-- The call `active_ctx->suspend( lk)`; `lk_owns_lock` tells whether `lk` holds
  `wait_queue_splk_` when it is passed. -/
  | suspend (active_ctx : context) (lk_owns_lock : Bool) : call
  /-- The call `active_ctx->yield()`. -/
  | yield (active_ctx : context) : call
  /-- The call `active_ctx->schedule( ctx)`. -/
  | schedule (active_ctx : context) (ctx : context) : call
  deriving DecidableEq, Repr

/-- How a member function ends: with a thrown `lock_error` or with a returned value. -/
inductive completion (ρ : Type) where
  | threw (e : errc) : completion ρ
  | returned (v : ρ) : completion ρ
  deriving DecidableEq, Repr

/-- The data members of `mutex`: `owner_` and `wait_queue_` (the spin lock
`wait_queue_splk_` serialises the member functions and is not a field here). -/
structure mutex where
  owner_ : context_ptr
  wait_queue_ : context_queue
  deriving DecidableEq, Repr

/-- What one call of a member function of `mutex` did: how it ended, the calls it made
on the execution-unit abstraction in order, and the data members afterwards. -/
structure outcome (ρ : Type) where
  result : completion ρ
  calls : List call
  state : mutex
  deriving DecidableEq, Repr

namespace mutex

/-- A mutex as constructed: `owner_{ nullptr }` and a wait queue of the given
capacity (`context_queue.default_capacity` for `wait_queue_{}`). -/
def init (capacity : Nat) : mutex :=
  { owner_ := none, wait_queue_ := context_queue.init capacity }

/-- The member `lock`, called by the unit `active_ctx = context::active()`.
When the caller is suspended the function executes nothing after it is resumed, so
`state` is the state at the call of `suspend`. -/
def lock (active_ctx : context) (m : mutex) : Option (outcome Unit) :=
  if some active_ctx = m.owner_ then
    some { result := .threw .resource_deadlock_would_occur, calls := [], state := m }
  else if none = m.owner_ then
    some { result := .returned (), calls := [], state := { m with owner_ := some active_ctx } }
  else do
    let wq ← m.wait_queue_.push (some active_ctx)
    some { result := .returned (), calls := [call.suspend active_ctx true],
           state := { m with wait_queue_ := wq } }

/-- The member `try_lock`, called by the unit `active_ctx`.  `yield_` is what the
units that run during `active_ctx->yield()` do to the data members; `state` is the
state when `yield()` has returned. -/
def try_lock (yield_ : mutex → Option mutex) (active_ctx : context) (m : mutex) :
    Option (outcome Bool) :=
  if some active_ctx = m.owner_ then
    some { result := .threw .resource_deadlock_would_occur, calls := [], state := m }
  else do
    let m1 := if none = m.owner_ then { m with owner_ := some active_ctx } else m
    let m2 ← yield_ m1
    some { result := .returned (some active_ctx == m2.owner_), calls := [call.yield active_ctx],
           state := m2 }

/-- The member `unlock`, called by the unit `active_ctx`. -/
def unlock (active_ctx : context) (m : mutex) : Option (outcome Unit) :=
  if some active_ctx ≠ m.owner_ then
    some { result := .threw .operation_not_permitted, calls := [], state := m }
  else do
    let (ctx, wq) ← m.wait_queue_.pop
    match ctx with
    | some c =>
      some { result := .returned (), calls := [call.schedule active_ctx c],
             state := { owner_ := some c, wait_queue_ := wq } }
    | none =>
      some { result := .returned (), calls := [], state := { owner_ := none, wait_queue_ := wq } }

end mutex

/-! ## Abstraction of the ring buffers -/

/-- The elements of the array `s` read from index `c` up to (not including) index `p`,
wrapping around at the end of the array when `p < c`. -/
def ring_range {α : Type} (s : List α) (c p : Nat) : List α :=
  if c ≤ p then (s.take p).drop c else s.drop c ++ s.take p

namespace context_queue

/-- The class invariant: `slots_` is an array of `capacity_ ≥ 1` elements and both
indices address it. -/
def wf (q : context_queue) : Prop :=
  1 ≤ q.capacity_ ∧ q.slots_.length = q.capacity_ ∧ q.pidx_ < q.capacity_ ∧
    q.cidx_ < q.capacity_

instance (q : context_queue) : Decidable q.wf := by
  unfold wf; infer_instance

/-- The live sequence: the elements read from `cidx_` up to `pidx_`, with wrap-around. -/
def live (q : context_queue) : List slot :=
  ring_range q.slots_ q.cidx_ q.pidx_

/-- The queue is well formed and its live sequence is the pointers `l`, oldest first,
each of them written by a `push`. -/
def holds (q : context_queue) (l : List context_ptr) : Prop :=
  q.wf ∧ q.live = l.map slot.value

instance (q : context_queue) (l : List context_ptr) : Decidable (q.holds l) := by
  unfold holds; infer_instance

end context_queue

namespace circular_buffer

/-- The same four data members read as a `context_queue`. -/
def to_queue (b : circular_buffer) : context_queue :=
  { pidx_ := b.pidx_, cidx_ := b.cidx_, capacity_ := b.capacity_, slots_ := b.slots_ }

/-- The class invariant: `slots_` is an array of `capacity_ ≥ 1` elements and both
indices address it. -/
def wf (b : circular_buffer) : Prop :=
  1 ≤ b.capacity_ ∧ b.slots_.length = b.capacity_ ∧ b.pidx_ < b.capacity_ ∧
    b.cidx_ < b.capacity_

instance (b : circular_buffer) : Decidable b.wf := by
  unfold wf; infer_instance

/-- The live sequence: the elements read from `cidx_` up to `pidx_`, with wrap-around. -/
def live (b : circular_buffer) : List slot :=
  ring_range b.slots_ b.cidx_ b.pidx_

/-- The buffer is well formed and its live sequence is the pointers `l`, oldest first,
each of them written by a `push`. -/
def holds (b : circular_buffer) (l : List context_ptr) : Prop :=
  b.wf ∧ b.live = l.map slot.value

instance (b : circular_buffer) (l : List context_ptr) : Decidable (b.holds l) := by
  unfold holds; infer_instance

end circular_buffer

/-! ## Call sequences -/

/-- A call on a Ready Queue: `push( c)` with a handle `c` (a non-null `context *`), or
`pop()`. -/
inductive queue_op where
  | push (c : context) : queue_op
  | pop : queue_op
  deriving DecidableEq, Repr

/-- The handles pushed by a call sequence, in push order. -/
def queue_op.pushes : List queue_op → List context
  | [] => []
  | queue_op.push c :: ops => c :: queue_op.pushes ops
  | queue_op.pop :: ops => queue_op.pushes ops

/-- Runs a call sequence on a queue: the results of the `pop` calls in call order, and
the queue afterwards. -/
def context_queue.run : List queue_op → context_queue → Option (List context_ptr × context_queue)
  | [], q => some ([], q)
  | queue_op.push c :: ops, q => do
    let q1 ← q.push (some c)
    context_queue.run ops q1
  | queue_op.pop :: ops, q => do
    let (r, q1) ← q.pop
    let (rs, q2) ← context_queue.run ops q1
    some (r :: rs, q2)

/-- The reference FIFO list: `push` appends at the back, `pop` takes the oldest handle
from the front and answers null on the empty list.  Returns the results of the `pop`
calls in call order and the list afterwards. -/
def fifo_run : List queue_op → List context → List context_ptr × List context
  | [], l => ([], l)
  | queue_op.push c :: ops, l => fifo_run ops (l ++ [c])
  | queue_op.pop :: ops, [] => (none :: (fifo_run ops []).1, (fifo_run ops []).2)
  | queue_op.pop :: ops, x :: l => (some x :: (fifo_run ops l).1, (fifo_run ops l).2)

/-- A call on a Stealable Deque: the owner's `push( c)` with a handle `c`, the owner's
`pop()`, or a thief's `steal()`. -/
inductive deque_op where
  | push (c : context) : deque_op
  | pop : deque_op
  | steal : deque_op
  deriving DecidableEq, Repr

/-- The handles pushed by a call sequence, in push order. -/
def deque_op.pushes : List deque_op → List context
  | [] => []
  | deque_op.push c :: ops => c :: deque_op.pushes ops
  | deque_op.pop :: ops => deque_op.pushes ops
  | deque_op.steal :: ops => deque_op.pushes ops

/-- What a removing call on a Stealable Deque returned, and which call it was. -/
inductive deque_event where
  | popped (r : context_ptr) : deque_event
  | stolen (r : context_ptr) : deque_event
  deriving DecidableEq, Repr

/-- The pointer a removing call returned. -/
def deque_event.result : deque_event → context_ptr
  | deque_event.popped r => r
  | deque_event.stolen r => r

/-- The handles (non-null results) returned by a sequence of removing calls, in return
order. -/
def deque_event.handles (evs : List deque_event) : List context :=
  evs.filterMap deque_event.result

/-- Runs a serialised call sequence on a deque: what the `pop` and `steal` calls
returned, in call order, and the deque afterwards. -/
def circular_buffer.run (pinned : context → Bool) :
    List deque_op → circular_buffer → Option (List deque_event × circular_buffer)
  | [], b => some ([], b)
  | deque_op.push c :: ops, b => do
    let b1 ← b.push (some c)
    circular_buffer.run pinned ops b1
  | deque_op.pop :: ops, b => do
    let (r, b1) ← b.pop
    let (evs, b2) ← circular_buffer.run pinned ops b1
    some (deque_event.popped r :: evs, b2)
  | deque_op.steal :: ops, b => do
    let (r, b1) ← b.steal pinned
    let (evs, b2) ← circular_buffer.run pinned ops b1
    some (deque_event.stolen r :: evs, b2)

/-- The reference deque: a list with the oldest handle in front.  `push` appends at the
back; `pop` takes the front handle and answers null on the empty list; `steal` answers
null and removes nothing when the list is empty or its front handle is pinned, and
otherwise takes the front handle as `pop` does.  Returns what the removing calls
returned, in call order, and the list afterwards. -/
def deque_ref_run (pinned : context → Bool) :
    List deque_op → List context → List deque_event × List context
  | [], l => ([], l)
  | deque_op.push c :: ops, l => deque_ref_run pinned ops (l ++ [c])
  | deque_op.pop :: ops, [] =>
    (deque_event.popped none :: (deque_ref_run pinned ops []).1,
      (deque_ref_run pinned ops []).2)
  | deque_op.pop :: ops, x :: l =>
    (deque_event.popped (some x) :: (deque_ref_run pinned ops l).1,
      (deque_ref_run pinned ops l).2)
  | deque_op.steal :: ops, [] =>
    (deque_event.stolen none :: (deque_ref_run pinned ops []).1,
      (deque_ref_run pinned ops []).2)
  | deque_op.steal :: ops, x :: l =>
    if pinned x then
      (deque_event.stolen none :: (deque_ref_run pinned ops (x :: l)).1,
        (deque_ref_run pinned ops (x :: l)).2)
    else
      (deque_event.stolen (some x) :: (deque_ref_run pinned ops l).1,
        (deque_ref_run pinned ops l).2)

/-- A call on either ring buffer class through the members both have: `push( c)` with
any pointer, `pop()` or `empty()`. -/
inductive ring_op where
  | push (c : context_ptr) : ring_op
  | pop : ring_op
  | empty : ring_op
  deriving DecidableEq, Repr

/-- What a call of `push`, `pop` or `empty` returned. -/
inductive ring_result where
  | pushed : ring_result
  | popped (r : context_ptr) : ring_result
  | emptiness (e : Bool) : ring_result
  deriving DecidableEq, Repr

/-- Runs a sequence of `push`/`pop`/`empty` calls on a `context_queue`: what every call
returned, in call order, and the queue afterwards. -/
def context_queue.run_ops :
    List ring_op → context_queue → Option (List ring_result × context_queue)
  | [], q => some ([], q)
  | ring_op.push c :: ops, q => do
    let q1 ← q.push c
    let (rs, q2) ← context_queue.run_ops ops q1
    some (ring_result.pushed :: rs, q2)
  | ring_op.pop :: ops, q => do
    let (r, q1) ← q.pop
    let (rs, q2) ← context_queue.run_ops ops q1
    some (ring_result.popped r :: rs, q2)
  | ring_op.empty :: ops, q => do
    let (rs, q2) ← context_queue.run_ops ops q
    some (ring_result.emptiness q.empty :: rs, q2)

/-- Runs a sequence of `push`/`pop`/`empty` calls on a `circular_buffer`: what every call
returned, in call order, and the buffer afterwards. -/
def circular_buffer.run_ops :
    List ring_op → circular_buffer → Option (List ring_result × circular_buffer)
  | [], b => some ([], b)
  | ring_op.push c :: ops, b => do
    let b1 ← b.push c
    let (rs, b2) ← circular_buffer.run_ops ops b1
    some (ring_result.pushed :: rs, b2)
  | ring_op.pop :: ops, b => do
    let (r, b1) ← b.pop
    let (rs, b2) ← circular_buffer.run_ops ops b1
    some (ring_result.popped r :: rs, b2)
  | ring_op.empty :: ops, b => do
    let (rs, b2) ← circular_buffer.run_ops ops b
    some (ring_result.emptiness b.empty :: rs, b2)

/-! ## Call sequences on the mutex -/

/-- A call of a member function of `mutex` by the unit `c`. -/
inductive mutex_call where
  | lock (c : context) : mutex_call
  | try_lock (c : context) : mutex_call
  | unlock (c : context) : mutex_call
  deriving DecidableEq, Repr

/-- The unit that makes the call. -/
def mutex_call.caller : mutex_call → context
  | mutex_call.lock c => c
  | mutex_call.try_lock c => c
  | mutex_call.unlock c => c

/-- The data members after one call, executed under `wait_queue_splk_`.  A `try_lock`
is taken with a `yield()` during which nobody else runs: what other units do while its
caller is in `yield()` are the calls that follow in a sequence, and the part of
`try_lock` after `yield()` only reads `owner_`. -/
def mutex.step (m : mutex) : mutex_call → Option mutex
  | mutex_call.lock c => (m.lock c).map fun o => o.state
  | mutex_call.try_lock c => (m.try_lock some c).map fun o => o.state
  | mutex_call.unlock c => (m.unlock c).map fun o => o.state

/-- The data members after a sequence of calls. -/
def mutex.run_calls : List mutex_call → mutex → Option mutex
  | [], m => some m
  | k :: ks, m => (m.step k).bind (mutex.run_calls ks)

/-- The states a mutex constructed with a wait queue of the given capacity reaches through
calls made by running units: a unit whose handle is in the wait queue is suspended and
makes no call. -/
inductive mutex.reachable (capacity : Nat) : mutex → Prop where
  | init : mutex.reachable capacity (mutex.init capacity)
  | step (m m' : mutex) (k : mutex_call) :
      mutex.reachable capacity m →
      slot.value (some k.caller) ∉ m.wait_queue_.live →
      m.step k = some m' →
      mutex.reachable capacity m'

/-- The mutex of the specification: an owner reference (null when unlocked) and the
list of blocked units, longest-waiting first.  `lock` by the owner changes nothing (it
fails), on an unlocked mutex makes the caller owner, and otherwise appends the caller;
`try_lock` makes the caller owner of an unlocked mutex and changes nothing otherwise;
`unlock` by the owner hands ownership to the first blocked unit or clears it, and by
anybody else changes nothing (it fails). -/
def mutex_ref_step : mutex_call → context_ptr × List context → context_ptr × List context
  | mutex_call.lock c, (o, ws) =>
    if o = some c then (o, ws) else if o = none then (some c, ws) else (o, ws ++ [c])
  | mutex_call.try_lock c, (o, ws) =>
    if o = none then (some c, ws) else (o, ws)
  | mutex_call.unlock c, (o, ws) =>
    if o = some c then
      match ws with
      | [] => (none, [])
      | w :: rest => (some w, rest)
    else (o, ws)

/-! ## `algo::work_stealing` (the members defined in `work_stealing.cpp`) -/

/-- Modelled from the spec: the constructor `work_stealing( max_idx, idx, suspend)` is
defined in `work_stealing.cpp`, which is not among the embedded files.  An algorithm
instance starts with its worker index, an empty Stealable Deque and a cleared flag; the
capacity of the deque (`16 * page_size()` in the header) is a parameter. -/
def work_stealing.init (capacity max_idx idx : Nat) (suspend : Bool) : work_stealing :=
  { idx_ := idx, max_idx_ := max_idx, rqueue_ := circular_buffer.init capacity,
    flag_ := false, suspend_ := suspend }

/-- Modelled from the spec: the roster `schedulers_` maps `worker_index` to the
algorithm instance, is populated once with `worker_count` entries before any stealing
begins, and is fixed in size.  It is a list indexed by worker index. -/
def work_stealing.roster (capacity worker_count : Nat) : List work_stealing :=
  (List.range worker_count).map fun i =>
    work_stealing.init capacity (worker_count - 1) i false

/-- Modelled from the spec: `awakened( unit)` is defined in `work_stealing.cpp`.
It pushes the unit onto the local Stealable Deque of worker `i`. -/
def work_stealing.awakened (roster : List work_stealing) (i : Nat) (ctx : context) :
    Option (List work_stealing) := do
  let w ← roster[i]?
  let rq ← w.rqueue_.push (some ctx)
  some (roster.set i { w with rqueue_ := rq })

/-- Modelled from the spec: the fixed scan order over the peers of worker `i`,
ascending worker index starting just after `i`, wrapping around and excluding `i`. -/
def work_stealing.peer_order (i worker_count : Nat) : List Nat :=
  ((List.range worker_count).rotate (i + 1)).filter fun j => j != i

/-- Modelled from the spec: the second half of `pick_next`, calling `steal()` of each
peer in turn and returning the first non-null result, or null when every peer yields
nothing. -/
def work_stealing.steal_from_peers (pinned : context → Bool) :
    List Nat → List work_stealing → Option (context_ptr × List work_stealing)
  | [], roster => some (none, roster)
  | j :: js, roster => do
    let w ← roster[j]?
    let (c, w1) ← w.steal pinned
    match c with
    | some ctx => some (some ctx, roster.set j w1)
    | none => work_stealing.steal_from_peers pinned js (roster.set j w1)

/-- Modelled from the spec: `pick_next()` is defined in `work_stealing.cpp`.  On worker
`i` it pops the local deque and returns the result if it is non-null; otherwise it goes
over the peers, excluding itself, and returns the first non-null result of their
`steal()`, or null when all peers yield nothing. -/
def work_stealing.pick_next (pinned : context → Bool) (roster : List work_stealing) (i : Nat) :
    Option (context_ptr × List work_stealing) := do
  let w ← roster[i]?
  let (c, rq) ← w.rqueue_.pop
  let roster1 := roster.set i { w with rqueue_ := rq }
  match c with
  | some ctx => some (some ctx, roster1)
  | none =>
    work_stealing.steal_from_peers pinned (work_stealing.peer_order i roster.length) roster1

/-! ## List facts used below -/

theorem take_set_of_le {α : Type} (s : List α) (v : α) {m n : Nat} (h : m ≤ n) :
    (s.set n v).take m = s.take m := by
  apply List.ext_getElem?
  intro i
  by_cases hi : i < m
  · rw [List.getElem?_take_of_lt hi, List.getElem?_take_of_lt hi, List.getElem?_set]
    rw [if_neg (by omega)]
  · simp [List.getElem?_take, hi]

/-- Writing at the producer index and advancing it appends to the window, unless the
window is full. -/
theorem ring_range_push {α : Type} (s : List α) (c p : Nat) (v : α) (hc : c < s.length)
    (hp : p < s.length) (hne : c ≠ (p + 1) % s.length) :
    ring_range (s.set p v) c ((p + 1) % s.length) = ring_range s c p ++ [v] := by
  have hget : (s.set p v)[p]? = some v := by simp [List.getElem?_set, hp]
  by_cases hw : p + 1 < s.length
  · rw [Nat.mod_eq_of_lt hw] at hne ⊢
    unfold ring_range
    by_cases hcp : c ≤ p
    · rw [if_pos (by omega), if_pos hcp, List.take_succ, hget,
        take_set_of_le _ _ (Nat.le_refl _), List.drop_append_of_le_length (by simp; omega)]
      rfl
    · rw [if_neg (by omega), if_neg hcp, List.take_succ, hget,
        take_set_of_le _ _ (Nat.le_refl _), List.drop_set_of_lt _ _ (by omega),
        List.append_assoc]
      rfl
  · have hpl : p + 1 = s.length := by omega
    rw [hpl, Nat.mod_self] at hne ⊢
    unfold ring_range
    rw [if_neg (by omega), if_pos (by omega)]
    simp only [List.take_zero, List.append_nil]
    rw [List.set_eq_take_append_cons_drop, if_pos hp,
      List.drop_append_of_le_length (by simp; omega)]
    congr 1
    rw [List.drop_of_length_le (by omega)]

/-- A non-empty window starts with the element at the consumer index, and advancing
that index removes it. -/
theorem ring_range_pop {α : Type} (s : List α) (c p : Nat) (hc : c < s.length)
    (hp : p < s.length) (hne : c ≠ p) :
    ring_range s c p = s[c] :: ring_range s ((c + 1) % s.length) p := by
  by_cases hw : c + 1 < s.length
  · rw [Nat.mod_eq_of_lt hw]
    unfold ring_range
    by_cases hcp : c ≤ p
    · rw [if_pos hcp, if_pos (by omega), List.drop_eq_getElem_cons (by simp; omega)]
      simp [List.getElem_take]
    · rw [if_neg hcp, if_neg (by omega), List.drop_eq_getElem_cons hc]
      rfl
  · have hcl : c + 1 = s.length := by omega
    rw [hcl, Nat.mod_self]
    unfold ring_range
    rw [if_neg (by omega), if_pos (by omega), List.drop_eq_getElem_cons hc,
      List.drop_of_length_le (by omega)]
    simp

theorem ring_range_length {α : Type} (s : List α) (c p : Nat) (hp : p < s.length) :
    (ring_range s c p).length = if c ≤ p then p - c else s.length - c + p := by
  unfold ring_range
  split_ifs with h
  · simp; omega
  · simp; omega

/-! ## The ring buffer operations on well-formed states -/

theorem full_cases {c p n : Nat} (hp : p < n) (hfull : c = (p + 1) % n) :
    (c = 0 ∧ p + 1 = n) ∨ (0 < c ∧ p + 1 = c) := by
  by_cases hw : p + 1 < n
  · rw [Nat.mod_eq_of_lt hw] at hfull
    right; omega
  · have hpl : p + 1 = n := by omega
    rw [hpl, Nat.mod_self] at hfull
    left; omega

theorem memcpy_eq {dst src : List slot} {dpos spos n : Nat} (h₁ : spos + n ≤ src.length)
    (h₂ : dpos + n ≤ dst.length) :
    memcpy dst dpos src spos n
      = some (dst.take dpos ++ (src.drop spos).take n ++ dst.drop (dpos + n)) := by
  unfold memcpy
  rw [if_pos ⟨h₁, h₂⟩]

/-- The first copy of `resize_`. -/
theorem memcpy_first (s : List slot) (c : Nat) (hc : c ≤ s.length) :
    memcpy (new_slots (2 * s.length)) 0 s c (s.length - c)
      = some (s.drop c ++ new_slots (s.length + c)) := by
  rw [memcpy_eq (by omega) (by simp [new_slots]; omega)]
  have h1 : (s.drop c).take (s.length - c) = s.drop c :=
    List.take_of_length_le (by simp)
  have h2 : (new_slots (2 * s.length)).drop (0 + (s.length - c)) = new_slots (s.length + c) := by
    simp only [new_slots, List.drop_replicate]
    congr 1; omega
  rw [h1, h2]; simp

/-- The second copy of `resize_`. -/
theorem memcpy_second (s : List slot) (c p : Nat) (hc : c ≤ s.length) (hp : p ≤ c) :
    memcpy (s.drop c ++ new_slots (s.length + c)) (s.length - c) s 0 p
      = some (s.drop c ++ s.take p ++ new_slots (s.length + c - p)) := by
  rw [memcpy_eq (by omega) (by simp [new_slots]; omega)]
  have h1 : (s.drop c ++ new_slots (s.length + c)).take (s.length - c) = s.drop c :=
    List.take_left' (by simp)
  have h2 : (s.drop c ++ new_slots (s.length + c)).drop (s.length - c + p)
      = new_slots (s.length + c - p) := by
    rw [List.drop_append_eq_append_drop, List.drop_of_length_le (by simp)]
    simp only [new_slots, List.drop_replicate, List.length_drop, List.nil_append]
    congr 1; omega
  rw [h1, h2]; simp

theorem context_queue.resize_eq (q : context_queue) (hwf : q.wf)
    (hfull : q.cidx_ = (q.pidx_ + 1) % q.capacity_) :
    ∃ rest, rest.length = q.capacity_ + 1 ∧
      q.resize_ = some { pidx_ := q.capacity_ - 1, cidx_ := 0, capacity_ := q.capacity_ * 2,
                         slots_ := q.live ++ rest } := by
  obtain ⟨p, c, n, s⟩ := q
  obtain ⟨hn, hlen, hp, hc⟩ := hwf
  simp only at hn hlen hp hc hfull
  subst hlen
  have hguard : ¬ (s.length = 0 ∨ s.length < c) := by omega
  simp only [context_queue.resize_, if_neg hguard, context_queue.live]
  rw [memcpy_first s c (by omega)]
  rcases full_cases hp hfull with ⟨hc0, hpn⟩ | ⟨hc0, hpc⟩
  · subst hc0
    refine ⟨[s[p]] ++ new_slots s.length, by simp [new_slots], ?_⟩
    have h1 : ring_range s 0 p = s.take p := by simp [ring_range]
    have h2 : s.take p ++ [s[p]] = s := by
      have : s.take (p + 1) = s := List.take_of_length_le (by omega)
      rw [List.take_succ, List.getElem?_eq_getElem hp] at this
      exact this
    have h3 : ring_range s 0 p ++ ([s[p]] ++ new_slots s.length) = s ++ new_slots s.length := by
      rw [h1, ← List.append_assoc, h2]
    rw [h3]
    simp
  · refine ⟨new_slots (s.length + 1), by simp [new_slots], ?_⟩
    have h1 : ring_range s c p = s.drop c ++ s.take p := by
      unfold ring_range; rw [if_neg (by omega)]
    have h2 : s.length + c - p = s.length + 1 := by omega
    simp only [if_pos hc0, Option.bind_eq_bind, Option.some_bind]
    rw [memcpy_second s c p (by omega) (by omega), h1, h2]
    simp

theorem context_queue.live_length (q : context_queue) (hwf : q.wf) :
    q.live.length = if q.cidx_ ≤ q.pidx_ then q.pidx_ - q.cidx_
      else q.capacity_ - q.cidx_ + q.pidx_ := by
  obtain ⟨_, hlen, hp, _⟩ := hwf
  rw [← hlen]
  exact ring_range_length _ _ _ (by omega)

theorem context_queue.resize_spec (q : context_queue) (hwf : q.wf)
    (hfull : q.cidx_ = (q.pidx_ + 1) % q.capacity_) :
    ∃ q', q.resize_ = some q' ∧ q'.wf ∧ q'.live = q.live ∧ q'.cidx_ = 0 ∧
      q'.pidx_ = q.capacity_ - 1 ∧ q'.capacity_ = q.capacity_ * 2 := by
  obtain ⟨rest, hrest, heq⟩ := q.resize_eq hwf hfull
  have hlen := q.live_length hwf
  have hwf' := hwf
  obtain ⟨hn, hsl, hp, hc⟩ := hwf'
  have hll : q.live.length = q.capacity_ - 1 := by
    rcases full_cases hp hfull with ⟨hc0, hpn⟩ | ⟨hc0, hpc⟩
    · rw [hlen, if_pos (by omega)]; omega
    · rw [hlen, if_neg (by omega)]; omega
  refine ⟨_, heq, ?_, ?_, rfl, rfl, rfl⟩
  · refine ⟨?_, ?_, ?_, ?_⟩ <;> simp <;> omega
  · simp only [context_queue.live, ring_range, Nat.zero_le, if_true, List.drop_zero]
    exact List.take_left' hll

theorem context_queue.is_full_eq (q : context_queue) (hwf : q.wf) :
    q.is_full_ = some (q.cidx_ == (q.pidx_ + 1) % q.capacity_) := by
  obtain ⟨hn, -, -, -⟩ := hwf
  simp [context_queue.is_full_, umod, Nat.pos_iff_ne_zero.mp hn]

/-- The two statements of `push` after the test for growth. -/
theorem context_queue.store_spec (q : context_queue) (c : context_ptr) (hwf : q.wf)
    (hne : q.cidx_ ≠ (q.pidx_ + 1) % q.capacity_) :
    ∃ q', (do
        let slots ← store q.slots_ q.pidx_ c
        let i ← umod (q.pidx_ + 1) q.capacity_
        some { q with slots_ := slots, pidx_ := i }) = some q' ∧
      q'.wf ∧ q'.live = q.live ++ [slot.value c] ∧ q'.capacity_ = q.capacity_ ∧
      q'.cidx_ = q.cidx_ := by
  obtain ⟨p, ci, n, s⟩ := q
  obtain ⟨hn, hlen, hp, hc⟩ := hwf
  simp only at hn hlen hp hc hne
  subst hlen
  refine ⟨{ pidx_ := (p + 1) % s.length, cidx_ := ci, capacity_ := s.length,
            slots_ := s.set p (slot.value c) }, ?_, ?_, ?_, rfl, rfl⟩
  · simp only [store, if_pos hp, umod, if_neg (Nat.pos_iff_ne_zero.mp hn),
      Option.bind_eq_bind, Option.some_bind]
  · exact ⟨hn, by simp, Nat.mod_lt _ (by omega), hc⟩
  · exact ring_range_push s ci p (slot.value c) hc hp hne

theorem context_queue.push_spec (q : context_queue) (c : context_ptr) (hwf : q.wf) :
    ∃ q', q.push c = some q' ∧ q'.wf ∧ q'.live = q.live ++ [slot.value c] := by
  unfold context_queue.push
  rw [q.is_full_eq hwf]
  by_cases hfull : q.cidx_ = (q.pidx_ + 1) % q.capacity_
  · obtain ⟨q1, h1, hwf1, hlive1, hc1, hp1, hcap1⟩ := q.resize_spec hwf hfull
    have hne : q1.cidx_ ≠ (q1.pidx_ + 1) % q1.capacity_ := by
      obtain ⟨hn, -, -, -⟩ := hwf
      rw [hc1, hp1, hcap1, Nat.mod_eq_of_lt (by omega)]
      omega
    obtain ⟨q', h2, hwf', hlive', -, -⟩ := q1.store_spec c hwf1 hne
    refine ⟨q', ?_, hwf', by rw [hlive', hlive1]⟩
    have hb : (q.cidx_ == (q.pidx_ + 1) % q.capacity_) = true := by simpa using hfull
    simp only [hb, if_true, Option.bind_eq_bind, Option.some_bind, h1]
    exact h2
  · obtain ⟨q', h2, hwf', hlive', -, -⟩ := q.store_spec c hwf hfull
    refine ⟨q', ?_, hwf', hlive'⟩
    have hb : (q.cidx_ == (q.pidx_ + 1) % q.capacity_) = false := by simpa using hfull
    simp only [hb, Option.bind_eq_bind, Option.some_bind]
    exact h2

theorem context_queue.push_holds (q : context_queue) (l : List context_ptr) (c : context_ptr)
    (h : q.holds l) : ∃ q', q.push c = some q' ∧ q'.holds (l ++ [c]) := by
  obtain ⟨q', h1, hwf', hlive'⟩ := q.push_spec c h.1
  exact ⟨q', h1, hwf', by rw [hlive', h.2]; simp⟩

theorem context_queue.init_holds (capacity : Nat) (h : 1 ≤ capacity) :
    (context_queue.init capacity).holds [] := by
  refine ⟨⟨h, by simp [context_queue.init, new_slots], h, h⟩, ?_⟩
  simp [context_queue.live, context_queue.init, ring_range]

theorem context_queue.pop_holds_nil (q : context_queue) (h : q.holds []) :
    q.pop = some (none, q) := by
  obtain ⟨hwf, hlive⟩ := h
  have hlen := q.live_length hwf
  rw [hlive] at hlen
  obtain ⟨hn, hsl, hp, hc⟩ := hwf
  have heq : q.cidx_ = q.pidx_ := by
    simp only [List.map_nil, List.length_nil] at hlen
    split_ifs at hlen <;> omega
  simp [context_queue.pop, context_queue.is_empty_, heq]

theorem context_queue.pop_holds_cons (q : context_queue) (x : context_ptr)
    (l : List context_ptr) (h : q.holds (x :: l)) :
    ∃ q', q.pop = some (x, q') ∧ q'.holds l ∧ q'.capacity_ = q.capacity_ := by
  obtain ⟨hwf, hlive⟩ := h
  have hlen := q.live_length hwf
  rw [hlive] at hlen
  obtain ⟨p, ci, n, s⟩ := q
  obtain ⟨hn, hsl, hp, hc⟩ := hwf
  simp only at hn hsl hp hc hlen
  subst hsl
  have hne : ci ≠ p := by
    intro heq
    simp [heq] at hlen
  have hpop := ring_range_pop s ci p hc hp hne
  simp only [context_queue.live] at hlive
  rw [hpop] at hlive
  simp only [List.map_cons, List.cons.injEq] at hlive
  refine ⟨{ pidx_ := p, cidx_ := (ci + 1) % s.length, capacity_ := s.length, slots_ := s },
    ?_, ⟨⟨hn, rfl, hp, Nat.mod_lt _ (by omega)⟩, hlive.2⟩, rfl⟩
  have hload : load s ci = some x := by
    simp [load, List.getElem?_eq_getElem hc, hlive.1]
  simp [context_queue.pop, context_queue.is_empty_, hne, hload, umod,
    Nat.pos_iff_ne_zero.mp hn]

/-! ## The deque buffer read as a queue -/

theorem circular_buffer.resize_to_queue (b : circular_buffer) :
    b.resize_.map circular_buffer.to_queue = b.to_queue.resize_ := by
  obtain ⟨p, c, n, s⟩ := b
  simp only [circular_buffer.resize_, context_queue.resize_, circular_buffer.to_queue]
  by_cases hg : n = 0 ∨ n < c
  · simp [hg]
  · simp only [if_neg hg, Option.bind_eq_bind]
    cases memcpy (new_slots (2 * n)) 0 s c (n - c) with
    | none => rfl
    | some s1 =>
      simp only [Option.some_bind]
      by_cases hc : 0 < c
      · simp only [if_pos hc]
        cases memcpy s1 (n - c) s 0 p <;> rfl
      · simp only [if_neg hc]
        rfl

theorem circular_buffer.push_to_queue (c : context_ptr) (b : circular_buffer) :
    (b.push c).map circular_buffer.to_queue = b.to_queue.push c := by
  have hr := b.resize_to_queue
  obtain ⟨p, ci, n, s⟩ := b
  simp only [circular_buffer.push, context_queue.push, circular_buffer.is_full_,
    context_queue.is_full_, circular_buffer.to_queue, Option.bind_eq_bind] at hr ⊢
  cases umod (p + 1) n with
  | none => rfl
  | some i =>
    simp only [Option.some_bind]
    by_cases hf : (ci == i) = true
    · simp only [hf, if_true]
      rw [← hr]
      cases circular_buffer.resize_ { pidx_ := p, cidx_ := ci, capacity_ := n, slots_ := s } with
      | none => rfl
      | some b1 =>
        obtain ⟨p1, c1, n1, s1⟩ := b1
        simp only [Option.some_bind, Option.map_some', circular_buffer.to_queue]
        cases store s1 p1 c with
        | none => rfl
        | some s2 =>
          simp only [Option.some_bind]
          cases umod (p1 + 1) n1 <;> rfl
    · simp only [hf, if_false, Option.some_bind]
      cases store s p c with
      | none => rfl
      | some s1 =>
        simp only [Option.some_bind]
        cases umod (p + 1) n <;> rfl

theorem circular_buffer.pop_to_queue (b : circular_buffer) :
    b.pop.map (fun r => (r.1, r.2.to_queue)) = b.to_queue.pop := by
  obtain ⟨p, ci, n, s⟩ := b
  simp only [circular_buffer.pop, context_queue.pop, context_queue.is_empty_,
    circular_buffer.empty, circular_buffer.to_queue, Option.bind_eq_bind]
  by_cases he : (! (ci == p)) = true
  · simp only [he, if_true]
    cases load s ci with
    | none => rfl
    | some c =>
      simp only [Option.some_bind]
      cases umod (ci + 1) n <;> rfl
  · simp only [he, if_false]
    rfl

theorem circular_buffer.buffer_resize_spec (b : circular_buffer) (hwf : b.wf)
    (hfull : b.cidx_ = (b.pidx_ + 1) % b.capacity_) :
    ∃ b', b.resize_ = some b' ∧ b'.wf ∧ b'.live = b.live ∧ b'.cidx_ = 0 ∧
      b'.pidx_ = b.capacity_ - 1 ∧ b'.capacity_ = b.capacity_ * 2 := by
  obtain ⟨q', h1, h2⟩ := b.to_queue.resize_spec hwf hfull
  rw [← b.resize_to_queue] at h1
  cases hb : b.resize_ with
  | none => rw [hb] at h1; simp at h1
  | some b' =>
    rw [hb] at h1
    simp only [Option.map_some', Option.some.injEq] at h1
    subst h1
    exact ⟨b', rfl, h2⟩

theorem circular_buffer.buffer_init_holds (capacity : Nat) (h : 1 ≤ capacity) :
    (circular_buffer.init capacity).holds [] :=
  context_queue.init_holds capacity h

theorem circular_buffer.buffer_push_holds (b : circular_buffer) (l : List context_ptr)
    (c : context_ptr) (h : b.holds l) : ∃ b', b.push c = some b' ∧ b'.holds (l ++ [c]) := by
  obtain ⟨q', h1, h2⟩ := b.to_queue.push_holds l c h
  rw [← b.push_to_queue] at h1
  cases hb : b.push c with
  | none => rw [hb] at h1; simp at h1
  | some b' =>
    rw [hb] at h1
    simp only [Option.map_some', Option.some.injEq] at h1
    subst h1
    exact ⟨b', rfl, h2⟩

theorem circular_buffer.buffer_pop_holds_nil (b : circular_buffer) (h : b.holds []) :
    b.pop = some (none, b) := by
  have h1 := b.to_queue.pop_holds_nil h
  rw [← b.pop_to_queue] at h1
  cases hb : b.pop with
  | none => rw [hb] at h1; simp at h1
  | some r =>
    obtain ⟨x, b'⟩ := r
    rw [hb] at h1
    simp only [Option.map_some', Option.some.injEq, Prod.mk.injEq] at h1
    obtain ⟨hx, hq⟩ := h1
    subst hx
    obtain ⟨p, ci, n, s⟩ := b
    obtain ⟨p', ci', n', s'⟩ := b'
    simp only [circular_buffer.to_queue, context_queue.mk.injEq] at hq
    obtain ⟨rfl, rfl, rfl, rfl⟩ := hq
    rfl

theorem circular_buffer.buffer_pop_holds_cons (b : circular_buffer) (x : context_ptr)
    (l : List context_ptr) (h : b.holds (x :: l)) :
    ∃ b', b.pop = some (x, b') ∧ b'.holds l ∧ b'.capacity_ = b.capacity_ := by
  obtain ⟨q', h1, h2⟩ := b.to_queue.pop_holds_cons x l h
  rw [← b.pop_to_queue] at h1
  cases hb : b.pop with
  | none => rw [hb] at h1; simp at h1
  | some r =>
    obtain ⟨y, b'⟩ := r
    rw [hb] at h1
    simp only [Option.map_some', Option.some.injEq, Prod.mk.injEq] at h1
    obtain ⟨hx, hq⟩ := h1
    subst hx hq
    exact ⟨b', rfl, h2⟩

/-- On a non-empty buffer `pop` returns the element at the consumer index. -/
theorem circular_buffer.pop_eq_of_load (b : circular_buffer) (x : context_ptr)
    (he : b.empty = false) (hl : load b.slots_ b.cidx_ = some x) :
    b.pop = (umod (b.cidx_ + 1) b.capacity_).bind fun i => some (x, { b with cidx_ := i }) := by
  simp [circular_buffer.pop, he, hl]

theorem circular_buffer.pop_eq_of_empty (b : circular_buffer) (he : b.empty = true) :
    b.pop = some (none, b) := by
  simp [circular_buffer.pop, he]

theorem circular_buffer.steal_eq_of_empty (pinned : context → Bool) (b : circular_buffer)
    (he : b.empty = true) : b.steal pinned = some (none, b) := by
  simp [circular_buffer.steal, he]

theorem circular_buffer.steal_eq_of_pinned (pinned : context → Bool) (b : circular_buffer)
    (c : context) (he : b.empty = false) (hl : load b.slots_ b.cidx_ = some (some c))
    (hp : pinned c = true) : b.steal pinned = some (none, b) := by
  simp [circular_buffer.steal, he, hl, hp]

theorem circular_buffer.steal_eq_of_free (pinned : context → Bool) (b : circular_buffer)
    (c : context) (he : b.empty = false) (hl : load b.slots_ b.cidx_ = some (some c))
    (hp : pinned c = false) : b.steal pinned = b.pop := by
  rw [b.pop_eq_of_load (some c) he hl]
  simp [circular_buffer.steal, he, hl, hp]

theorem circular_buffer.steal_eq_of_null (pinned : context → Bool) (b : circular_buffer)
    (he : b.empty = false) (hl : load b.slots_ b.cidx_ = some none) :
    b.steal pinned = none := by
  simp [circular_buffer.steal, he, hl]

/-- In a well-formed buffer holding `x :: l` the consumer index addresses `x`. -/
theorem circular_buffer.front_of_holds (b : circular_buffer) (x : context_ptr)
    (l : List context_ptr) (h : b.holds (x :: l)) :
    b.empty = false ∧ load b.slots_ b.cidx_ = some x := by
  obtain ⟨b', h1, -, -⟩ := b.buffer_pop_holds_cons x l h
  by_cases he : b.empty = true
  · rw [b.pop_eq_of_empty he] at h1
    simp only [Option.some.injEq, Prod.mk.injEq] at h1
    obtain ⟨hx, hb⟩ := h1
    subst hx hb
    exfalso
    obtain ⟨-, hlive⟩ := h
    have hcp : b.cidx_ = b.pidx_ := by simpa [circular_buffer.empty] using he
    have hl0 : b.live.length = 0 := by
      simp [circular_buffer.live, ring_range, hcp]
    rw [hlive] at hl0
    simp at hl0
  · have he' : b.empty = false := by simpa using he
    refine ⟨he', ?_⟩
    simp only [circular_buffer.pop, he', Bool.not_false, if_true, Option.bind_eq_bind] at h1
    cases hl : load b.slots_ b.cidx_ with
    | none => rw [hl] at h1; simp at h1
    | some y =>
      rw [hl] at h1
      simp only [Option.some_bind] at h1
      cases hu : umod (b.cidx_ + 1) b.capacity_ with
      | none => rw [hu] at h1; simp at h1
      | some i =>
        rw [hu] at h1
        simp only [Option.some_bind, Option.some.injEq, Prod.mk.injEq] at h1
        rw [h1.1]

/-! ## Call sequences on the Ready Queue -/

theorem context_queue.run_spec (ops : List queue_op) :
    ∀ (q : context_queue) (l : List context), q.holds (l.map some) →
      ∃ q', q.run ops = some ((fifo_run ops l).1, q') ∧
        q'.holds ((fifo_run ops l).2.map some) := by
  induction ops with
  | nil => intro q l h; exact ⟨q, rfl, h⟩
  | cons op ops ih =>
    intro q l h
    cases op with
    | push c =>
      obtain ⟨q1, h1, h2⟩ := q.push_holds _ (some c) h
      have h2' : q1.holds ((l ++ [c]).map some) := by simpa using h2
      obtain ⟨q', h3, h4⟩ := ih q1 (l ++ [c]) h2'
      exact ⟨q', by simp [context_queue.run, h1, h3, fifo_run], by simpa [fifo_run] using h4⟩
    | pop =>
      cases l with
      | nil =>
        have h1 := q.pop_holds_nil h
        obtain ⟨q', h3, h4⟩ := ih q [] h
        exact ⟨q', by simp [context_queue.run, h1, h3, fifo_run], by simpa [fifo_run] using h4⟩
      | cons x l =>
        obtain ⟨q1, h1, h2, -⟩ := q.pop_holds_cons (some x) (l.map some) h
        obtain ⟨q', h3, h4⟩ := ih q1 l h2
        exact ⟨q', by simp [context_queue.run, h1, h3, fifo_run], by simpa [fifo_run] using h4⟩

/-- Nothing is lost or invented by the reference list: the handles returned followed by
the handles left are the handles held at the start followed by the handles pushed. -/
theorem fifo_run_conserve (ops : List queue_op) :
    ∀ l : List context,
      (fifo_run ops l).1.filterMap id ++ (fifo_run ops l).2 = l ++ queue_op.pushes ops := by
  induction ops with
  | nil => intro l; simp [fifo_run, queue_op.pushes]
  | cons op ops ih =>
    intro l
    cases op with
    | push c => simpa [fifo_run, queue_op.pushes] using ih (l ++ [c])
    | pop =>
      cases l with
      | nil => simpa [fifo_run, queue_op.pushes] using ih []
      | cons x l => simpa [fifo_run, queue_op.pushes] using ih l

/-- Claim C1.  For every initial capacity of at least 1 and every finite sequence of
`push`/`pop` calls on a freshly constructed `context_queue`, every call is defined and the
queue behaves as the reference FIFO list: the results of the `pop` calls are those of
`fifo_run` (the oldest handle not yet popped, or null when none remains) and the queue
ends holding exactly the handles the list holds.  Hence the non-null results are never
more than the pushes and they are an initial segment of the pushed handles in push
order.  The statement ranges over all call sequences, so it holds at every point of a
sequence. -/
theorem context_queue_behaves_as_fifo (capacity : Nat) (hcap : 1 ≤ capacity)
    (ops : List queue_op) :
    ∃ rs q, (context_queue.init capacity).run ops = some (rs, q) ∧
      rs = (fifo_run ops []).1 ∧
      q.holds ((fifo_run ops []).2.map some) ∧
      (rs.filterMap id).length ≤ (queue_op.pushes ops).length ∧
      rs.filterMap id <+: queue_op.pushes ops := by
  obtain ⟨q, h1, h2⟩ := context_queue.run_spec ops (context_queue.init capacity) []
    (context_queue.init_holds capacity hcap)
  have h3 := fifo_run_conserve ops []
  simp only [List.nil_append] at h3
  refine ⟨_, q, h1, rfl, h2, ?_, ?_⟩
  · rw [← h3]; simp
  · exact ⟨_, h3⟩

theorem context_queue_behaves_as_fifo_witness :
    1 ≤ 2 ∧ ∃ rs q, (context_queue.init 2).run
        [queue_op.push 7, queue_op.pop, queue_op.pop, queue_op.push 8, queue_op.push 9,
         queue_op.push 5, queue_op.pop, queue_op.pop, queue_op.pop, queue_op.pop]
        = some (rs, q) ∧
      rs = [some 7, none, some 8, some 9, some 5, none] ∧
      q.holds [] ∧
      (rs.filterMap id).length ≤ 4 ∧
      rs.filterMap id <+: [7, 8, 9, 5] :=
  ⟨by decide, context_queue_behaves_as_fifo 2 (by decide) _⟩

/-! ## Call sequences on the Stealable Deque -/

theorem circular_buffer.steal_holds_nil (pinned : context → Bool) (b : circular_buffer)
    (h : b.holds []) : b.steal pinned = some (none, b) := by
  have h1 := b.buffer_pop_holds_nil h
  by_cases he : b.empty = true
  · exact b.steal_eq_of_empty pinned he
  · exfalso
    have he' : b.empty = false := by simpa using he
    simp only [circular_buffer.pop, he', Bool.not_false, if_true, Option.bind_eq_bind] at h1
    cases hl : load b.slots_ b.cidx_ with
    | none => rw [hl] at h1; simp at h1
    | some y =>
      rw [hl] at h1
      simp only [Option.some_bind] at h1
      cases hu : umod (b.cidx_ + 1) b.capacity_ with
      | none => rw [hu] at h1; simp at h1
      | some i =>
        rw [hu] at h1
        simp only [Option.some_bind, Option.some.injEq, Prod.mk.injEq] at h1
        obtain ⟨-, hb⟩ := h1
        have hci : i = b.cidx_ := by rw [← hb]
        obtain ⟨hn, -, -, hc⟩ := h.1
        simp only [umod] at hu
        split_ifs at hu with h0
        simp only [Option.some.injEq] at hu
        have hcp : b.cidx_ ≠ b.pidx_ := by simpa [circular_buffer.empty] using he'
        have hlen := b.to_queue.live_length h.1
        have hl0 : b.to_queue.live = [] := h.2
        rw [hl0] at hlen
        simp only [circular_buffer.to_queue, List.length_nil] at hlen
        split_ifs at hlen <;> omega

theorem circular_buffer.steal_holds_pinned (pinned : context → Bool) (b : circular_buffer)
    (c : context) (l : List context_ptr) (h : b.holds (some c :: l)) (hp : pinned c = true) :
    b.steal pinned = some (none, b) := by
  obtain ⟨he, hl⟩ := b.front_of_holds _ _ h
  exact b.steal_eq_of_pinned pinned c he hl hp

theorem circular_buffer.steal_holds_free (pinned : context → Bool) (b : circular_buffer)
    (c : context) (l : List context_ptr) (h : b.holds (some c :: l)) (hp : pinned c = false) :
    ∃ b', b.steal pinned = some (some c, b') ∧ b'.holds l ∧ b'.capacity_ = b.capacity_ := by
  obtain ⟨he, hl⟩ := b.front_of_holds _ _ h
  rw [b.steal_eq_of_free pinned c he hl hp]
  exact b.buffer_pop_holds_cons _ _ h

theorem circular_buffer.buffer_run_spec (pinned : context → Bool) (ops : List deque_op) :
    ∀ (b : circular_buffer) (l : List context), b.holds (l.map some) →
      ∃ b', b.run pinned ops = some ((deque_ref_run pinned ops l).1, b') ∧
        b'.holds ((deque_ref_run pinned ops l).2.map some) := by
  induction ops with
  | nil => intro b l h; exact ⟨b, rfl, h⟩
  | cons op ops ih =>
    intro b l h
    cases op with
    | push c =>
      obtain ⟨b1, h1, h2⟩ := b.buffer_push_holds _ (some c) h
      have h2' : b1.holds ((l ++ [c]).map some) := by simpa using h2
      obtain ⟨b', h3, h4⟩ := ih b1 (l ++ [c]) h2'
      exact ⟨b', by simp [circular_buffer.run, h1, h3, deque_ref_run],
        by simpa [deque_ref_run] using h4⟩
    | pop =>
      cases l with
      | nil =>
        have h1 := b.buffer_pop_holds_nil h
        obtain ⟨b', h3, h4⟩ := ih b [] h
        exact ⟨b', by simp [circular_buffer.run, h1, h3, deque_ref_run],
          by simpa [deque_ref_run] using h4⟩
      | cons x l =>
        obtain ⟨b1, h1, h2, -⟩ := b.buffer_pop_holds_cons (some x) (l.map some) h
        obtain ⟨b', h3, h4⟩ := ih b1 l h2
        exact ⟨b', by simp [circular_buffer.run, h1, h3, deque_ref_run],
          by simpa [deque_ref_run] using h4⟩
    | steal =>
      cases l with
      | nil =>
        have h1 := b.steal_holds_nil pinned h
        obtain ⟨b', h3, h4⟩ := ih b [] h
        exact ⟨b', by simp [circular_buffer.run, h1, h3, deque_ref_run],
          by simpa [deque_ref_run] using h4⟩
      | cons x l =>
        by_cases hp : pinned x = true
        · have h1 := b.steal_holds_pinned pinned x (l.map some) h hp
          obtain ⟨b', h3, h4⟩ := ih b (x :: l) h
          exact ⟨b', by simp [circular_buffer.run, h1, h3, deque_ref_run, hp],
            by simpa [deque_ref_run, hp] using h4⟩
        · have hp' : pinned x = false := by simpa using hp
          obtain ⟨b1, h1, h2, -⟩ := b.steal_holds_free pinned x (l.map some) h hp'
          obtain ⟨b', h3, h4⟩ := ih b1 l h2
          exact ⟨b', by simp [circular_buffer.run, h1, h3, deque_ref_run, hp'],
            by simpa [deque_ref_run, hp'] using h4⟩

/-- Nothing is lost or invented by the reference deque. -/
theorem deque_ref_run_conserve (pinned : context → Bool) (ops : List deque_op) :
    ∀ l : List context,
      deque_event.handles (deque_ref_run pinned ops l).1 ++ (deque_ref_run pinned ops l).2
        = l ++ deque_op.pushes ops := by
  induction ops with
  | nil => intro l; simp [deque_ref_run, deque_op.pushes, deque_event.handles]
  | cons op ops ih =>
    intro l
    cases op with
    | push c =>
      simpa [deque_ref_run, deque_op.pushes] using ih (l ++ [c])
    | pop =>
      cases l with
      | nil =>
        simpa [deque_ref_run, deque_op.pushes, deque_event.handles, deque_event.result]
          using ih []
      | cons x l =>
        simpa [deque_ref_run, deque_op.pushes, deque_event.handles, deque_event.result]
          using ih l
    | steal =>
      cases l with
      | nil =>
        simpa [deque_ref_run, deque_op.pushes, deque_event.handles, deque_event.result]
          using ih []
      | cons x l =>
        by_cases hp : pinned x = true
        · simpa [deque_ref_run, deque_op.pushes, deque_event.handles, deque_event.result, hp]
            using ih (x :: l)
        · simpa [deque_ref_run, deque_op.pushes, deque_event.handles, deque_event.result, hp]
            using ih l

/-- The reference deque never hands a pinned handle to `steal`. -/
theorem deque_ref_run_stolen (pinned : context → Bool) (ops : List deque_op) :
    ∀ (l : List context) (c : context),
      deque_event.stolen (some c) ∈ (deque_ref_run pinned ops l).1 → pinned c = false := by
  induction ops with
  | nil => intro l c h; simp [deque_ref_run] at h
  | cons op ops ih =>
    intro l c h
    cases op with
    | push x => exact ih _ c (by simpa [deque_ref_run] using h)
    | pop =>
      cases l with
      | nil => exact ih _ c (by simpa [deque_ref_run] using h)
      | cons x l => exact ih _ c (by simpa [deque_ref_run] using h)
    | steal =>
      cases l with
      | nil => exact ih _ c (by simpa [deque_ref_run] using h)
      | cons x l =>
        by_cases hp : pinned x = true
        · exact ih _ c (by simpa [deque_ref_run, hp] using h)
        · simp only [deque_ref_run, hp, Bool.false_eq_true, if_false, List.mem_cons,
            deque_event.stolen.injEq, Option.some.injEq] at h
          rcases h with h | h
          · subst h; simpa using hp
          · exact ih _ c h

/-! ## Pushing a batch and popping it again -/

theorem fifo_run_pushes (tags : List context) (ops : List queue_op) :
    ∀ l : List context,
      fifo_run (tags.map queue_op.push ++ ops) l = fifo_run ops (l ++ tags) := by
  induction tags with
  | nil => intro l; simp
  | cons t tags ih => intro l; simp [fifo_run, ih]

theorem fifo_run_pops (l : List context) :
    fifo_run (List.replicate l.length queue_op.pop) l = (l.map some, []) := by
  induction l with
  | nil => rfl
  | cons x l ih => simp [List.replicate_succ, fifo_run, ih]

theorem deque_ref_run_pushes (pinned : context → Bool) (tags : List context)
    (ops : List deque_op) :
    ∀ l : List context,
      deque_ref_run pinned (tags.map deque_op.push ++ ops) l
        = deque_ref_run pinned ops (l ++ tags) := by
  induction tags with
  | nil => intro l; simp
  | cons t tags ih => intro l; simp [deque_ref_run, ih]

theorem deque_ref_run_pops (pinned : context → Bool) (l : List context) :
    deque_ref_run pinned (List.replicate l.length deque_op.pop) l
      = (l.map fun c => deque_event.popped (some c), []) := by
  induction l with
  | nil => rfl
  | cons x l ih => simp [List.replicate_succ, deque_ref_run, ih]

/-- Claim C2.  Growth never drops, duplicates or reorders handles.  For every full
well-formed state of a `context_queue` or of a `circular_buffer` (`cidx_` equal to
`(pidx_ + 1) % capacity_`, wrapped or not), `resize_` is defined and the live sequence
read from `cidx_` up to `pidx_` afterwards is the live sequence read with wrap-around
before.  Consequently pushing any number of tagged handles (in particular more than
the capacity) onto a fresh queue of capacity at least 1 and popping as many times
returns the tags in push order. -/
theorem growth_keeps_live_sequence :
    (∀ q : context_queue, q.wf → q.cidx_ = (q.pidx_ + 1) % q.capacity_ →
      ∃ q', q.resize_ = some q' ∧ q'.live = q.live) ∧
    (∀ b : circular_buffer, b.wf → b.cidx_ = (b.pidx_ + 1) % b.capacity_ →
      ∃ b', b.resize_ = some b' ∧ b'.live = b.live) ∧
    (∀ (capacity : Nat) (tags : List context), 1 ≤ capacity →
      ∃ q, (context_queue.init capacity).run
          (tags.map queue_op.push ++ List.replicate tags.length queue_op.pop)
        = some (tags.map some, q)) ∧
    (∀ (pinned : context → Bool) (capacity : Nat) (tags : List context), 1 ≤ capacity →
      ∃ b, (circular_buffer.init capacity).run pinned
          (tags.map deque_op.push ++ List.replicate tags.length deque_op.pop)
        = some (tags.map (fun c => deque_event.popped (some c)), b)) := by
  refine ⟨?_, ?_, ?_, ?_⟩
  · intro q hwf hfull
    obtain ⟨q', h1, -, h2, -⟩ := q.resize_spec hwf hfull
    exact ⟨q', h1, h2⟩
  · intro b hwf hfull
    obtain ⟨b', h1, -, h2, -⟩ := b.buffer_resize_spec hwf hfull
    exact ⟨b', h1, h2⟩
  · intro capacity tags hcap
    obtain ⟨q, h1, -⟩ := context_queue.run_spec
      (tags.map queue_op.push ++ List.replicate tags.length queue_op.pop)
      (context_queue.init capacity) [] (context_queue.init_holds capacity hcap)
    rw [fifo_run_pushes, List.nil_append, fifo_run_pops] at h1
    exact ⟨q, h1⟩
  · intro pinned capacity tags hcap
    obtain ⟨b, h1, -⟩ := circular_buffer.buffer_run_spec pinned
      (tags.map deque_op.push ++ List.replicate tags.length deque_op.pop)
      (circular_buffer.init capacity) [] (circular_buffer.buffer_init_holds capacity hcap)
    rw [deque_ref_run_pushes, List.nil_append, deque_ref_run_pops] at h1
    exact ⟨b, h1⟩

theorem growth_keeps_live_sequence_witness :
    (∃ q', context_queue.resize_
        { pidx_ := 1, cidx_ := 2, capacity_ := 4,
          slots_ := [slot.value (some 5), slot.indeterminate, slot.value (some 3),
                     slot.value (some 4)] } = some q' ∧
      q'.live = [slot.value (some 3), slot.value (some 4), slot.value (some 5)]) ∧
    (∃ q, (context_queue.init 2).run
        [queue_op.push 11, queue_op.push 12, queue_op.push 13, queue_op.pop, queue_op.pop,
         queue_op.pop] = some ([some 11, some 12, some 13], q)) :=
  ⟨growth_keeps_live_sequence.1 _ (by decide) (by decide),
   growth_keeps_live_sequence.2.2.1 2 [11, 12, 13] (by decide)⟩

/-- Claim C3.  For every serialised finite sequence of owner `push`, owner `pop` and
thief `steal` calls on a `circular_buffer` that starts empty with capacity at least 1
and receives pairwise distinct handles, every call is defined, the handles returned (in
return order) followed by the handles still queued (oldest first) are exactly the
pushed handles in push order, no handle is returned twice, and no returned handle is
still queued. -/
theorem deque_no_loss_no_duplication (pinned : context → Bool) (capacity : Nat)
    (ops : List deque_op) (hcap : 1 ≤ capacity) (hdistinct : (deque_op.pushes ops).Nodup) :
    ∃ evs b queued, (circular_buffer.init capacity).run pinned ops = some (evs, b) ∧
      b.holds (queued.map some) ∧
      deque_event.handles evs ++ queued = deque_op.pushes ops ∧
      (deque_event.handles evs).Nodup ∧
      (∀ c, c ∈ deque_event.handles evs → c ∉ queued) := by
  obtain ⟨b, h1, h2⟩ := circular_buffer.buffer_run_spec pinned ops (circular_buffer.init capacity) []
    (circular_buffer.buffer_init_holds capacity hcap)
  have h3 := deque_ref_run_conserve pinned ops []
  simp only [List.nil_append] at h3
  rw [← h3] at hdistinct
  refine ⟨_, b, _, h1, h2, h3, (List.nodup_append.mp hdistinct).1, ?_⟩
  intro c hc hq
  exact (List.nodup_append.mp hdistinct).2.2 hc hq

theorem deque_no_loss_no_duplication_witness :
    (1 ≤ 2 ∧ [1, 2, 3, 4].Nodup) ∧
    ∃ evs b queued, (circular_buffer.init 2).run (fun c => c == 3)
        [deque_op.push 1, deque_op.push 2, deque_op.steal, deque_op.push 3, deque_op.pop,
         deque_op.steal, deque_op.push 4, deque_op.pop, deque_op.steal] = some (evs, b) ∧
      b.holds (queued.map some) ∧
      deque_event.handles evs ++ queued = [1, 2, 3, 4] ∧
      (deque_event.handles evs).Nodup ∧
      (∀ c, c ∈ deque_event.handles evs → c ∉ queued) :=
  ⟨⟨by decide, by decide⟩,
   deque_no_loss_no_duplication (fun c => c == 3) 2 _ (by decide) (by decide)⟩

/-! ## `steal` and pinned handles -/

theorem circular_buffer.steal_result_free (pinned : context → Bool) (b b' : circular_buffer)
    (c : context) (h : b.steal pinned = some (some c, b')) : pinned c = false := by
  unfold circular_buffer.steal at h
  by_cases he : (! b.empty) = true
  · simp only [he, if_true, Option.bind_eq_bind] at h
    cases hl : load b.slots_ b.cidx_ with
    | none => rw [hl] at h; simp at h
    | some x =>
      rw [hl] at h
      cases x with
      | none => simp at h
      | some ctx =>
        simp only [Option.some_bind] at h
        by_cases hp : pinned ctx = true
        · simp [hp] at h
        · simp only [hp, Bool.false_eq_true, if_false] at h
          cases hu : umod (b.cidx_ + 1) b.capacity_ with
          | none => rw [hu] at h; simp at h
          | some i =>
            rw [hu] at h
            simp only [Option.some_bind, Option.some.injEq, Prod.mk.injEq] at h
            rw [← h.1]; simpa using hp
  · simp [he] at h

theorem deque_event.mem_handles (evs : List deque_event) (c : context)
    (h : c ∈ deque_event.handles evs) :
    deque_event.popped (some c) ∈ evs ∨ deque_event.stolen (some c) ∈ evs := by
  simp only [deque_event.handles, List.mem_filterMap] at h
  obtain ⟨ev, hev, hr⟩ := h
  cases ev with
  | popped r =>
    simp only [deque_event.result] at hr
    subst hr; exact Or.inl hev
  | stolen r =>
    simp only [deque_event.result] at hr
    subst hr; exact Or.inr hev

/-- Claim C4.  `steal` never returns a pinned handle: in every state of the buffer, and
through `work_stealing::steal`, a non-null result is not pinned.  Along every call
sequence on a deque that starts empty, no `steal` returned a pinned handle, and every
pinned handle that was pushed is either still queued or was returned by a `pop`. -/
theorem steal_never_returns_pinned (pinned : context → Bool) :
    (∀ (b b' : circular_buffer) (c : context),
      b.steal pinned = some (some c, b') → pinned c = false) ∧
    (∀ (w w' : work_stealing) (c : context),
      w.steal pinned = some (some c, w') → pinned c = false) ∧
    (∀ (capacity : Nat) (ops : List deque_op), 1 ≤ capacity →
      ∃ (evs : List deque_event) (b : circular_buffer) (queued : List context),
        (circular_buffer.init capacity).run pinned ops = some (evs, b) ∧
        b.holds (queued.map some) ∧
        (∀ c, deque_event.stolen (some c) ∈ evs → pinned c = false) ∧
        (∀ c, pinned c = true → c ∈ deque_op.pushes ops →
          c ∈ queued ∨ deque_event.popped (some c) ∈ evs)) := by
  refine ⟨?_, ?_, ?_⟩
  · intro b b' c h
    exact circular_buffer.steal_result_free pinned b b' c h
  · intro w w' c h
    unfold work_stealing.steal at h
    cases hs : w.rqueue_.steal pinned with
    | none => rw [hs] at h; simp at h
    | some r =>
      obtain ⟨x, rq⟩ := r
      rw [hs] at h
      simp only [Option.bind_eq_bind, Option.some_bind, Option.some.injEq, Prod.mk.injEq] at h
      rw [h.1] at hs
      exact circular_buffer.steal_result_free pinned _ _ c hs
  · intro capacity ops hcap
    obtain ⟨b, h1, h2⟩ := circular_buffer.buffer_run_spec pinned ops (circular_buffer.init capacity) []
      (circular_buffer.buffer_init_holds capacity hcap)
    have h3 := deque_ref_run_conserve pinned ops []
    simp only [List.nil_append] at h3
    refine ⟨_, b, _, h1, h2, deque_ref_run_stolen pinned ops [], ?_⟩
    intro c hp hc
    rw [← h3, List.mem_append] at hc
    rcases hc with hc | hc
    · rcases deque_event.mem_handles _ c hc with hpop | hst
      · exact Or.inr hpop
      · have := deque_ref_run_stolen pinned ops [] c hst
        rw [hp] at this
        exact absurd this (by decide)
    · exact Or.inl hc

theorem steal_never_returns_pinned_witness :
    ∃ (evs : List deque_event) (b : circular_buffer) (queued : List context),
      (circular_buffer.init 2).run (fun c => c == 2)
        [deque_op.push 1, deque_op.push 2, deque_op.steal, deque_op.steal, deque_op.push 3,
         deque_op.steal, deque_op.pop, deque_op.steal] = some (evs, b) ∧
      b.holds (queued.map some) ∧
      (∀ c, deque_event.stolen (some c) ∈ evs → (fun c => c == 2) c = false) ∧
      (∀ c, (fun c => c == 2) c = true → c ∈ [1, 2, 3] →
        c ∈ queued ∨ deque_event.popped (some c) ∈ evs) :=
  (steal_never_returns_pinned (fun c => c == 2)).2.2 2 _ (by decide)

/-- Claim C5.  On a non-empty deque whose consumer-end handle is pinned, `steal` returns
null and leaves `cidx_`, `pidx_`, `capacity_` and every slot as they were, whatever is
queued behind that handle, so the next `pop` of the owner still returns the pinned
handle. -/
theorem steal_leaves_pinned_front (pinned : context → Bool) (b : circular_buffer)
    (c : context) (hne : b.empty = false) (hfront : load b.slots_ b.cidx_ = some (some c))
    (hpin : pinned c = true) :
    b.steal pinned = some (none, b) ∧
    (b.capacity_ ≠ 0 →
      b.pop = some (some c, { b with cidx_ := (b.cidx_ + 1) % b.capacity_ })) := by
  refine ⟨b.steal_eq_of_pinned pinned c hne hfront hpin, ?_⟩
  intro hcap
  rw [b.pop_eq_of_load (some c) hne hfront]
  simp [umod, hcap]

theorem steal_leaves_pinned_front_witness :
    (circular_buffer.empty
        { pidx_ := 0, cidx_ := 2, capacity_ := 4,
          slots_ := [slot.value (some 5), slot.indeterminate, slot.value (some 7),
                     slot.value (some 8)] } = false ∧
      load [slot.value (some 5), slot.indeterminate, slot.value (some 7), slot.value (some 8)] 2
        = some (some 7) ∧
      (fun c => c == 7) 7 = true) ∧
    circular_buffer.steal (fun c => c == 7)
        { pidx_ := 0, cidx_ := 2, capacity_ := 4,
          slots_ := [slot.value (some 5), slot.indeterminate, slot.value (some 7),
                     slot.value (some 8)] }
      = some (none,
        { pidx_ := 0, cidx_ := 2, capacity_ := 4,
          slots_ := [slot.value (some 5), slot.indeterminate, slot.value (some 7),
                     slot.value (some 8)] }) ∧
    (4 ≠ 0 →
      circular_buffer.pop
        { pidx_ := 0, cidx_ := 2, capacity_ := 4,
          slots_ := [slot.value (some 5), slot.indeterminate, slot.value (some 7),
                     slot.value (some 8)] }
      = some (some 7,
        { pidx_ := 0, cidx_ := 3, capacity_ := 4,
          slots_ := [slot.value (some 5), slot.indeterminate, slot.value (some 7),
                     slot.value (some 8)] })) :=
  ⟨⟨by decide, by decide, by decide⟩,
   steal_leaves_pinned_front (fun c => c == 7) _ 7 (by decide) (by decide) (by decide)⟩

/-- Claim C6.  On a deque that is empty, or that is not empty and has a handle that is not
pinned at its consumer end, `steal` is `pop`: the two calls agree, and whenever
`capacity_` is not zero both are defined and return the same pointer (null when the
deque is empty) and the same state afterwards. -/
theorem steal_eq_pop (pinned : context → Bool) (b : circular_buffer)
    (h : b.empty = true ∨
      (b.empty = false ∧ ∃ c, load b.slots_ b.cidx_ = some (some c) ∧ pinned c = false)) :
    b.steal pinned = b.pop ∧
    (b.empty = true → b.steal pinned = some (none, b) ∧ b.pop = some (none, b)) ∧
    (b.capacity_ ≠ 0 → ∃ r b', b.steal pinned = some (r, b') ∧ b.pop = some (r, b')) := by
  have hempty : b.empty = true → b.steal pinned = some (none, b) ∧ b.pop = some (none, b) :=
    fun he => ⟨b.steal_eq_of_empty pinned he, b.pop_eq_of_empty he⟩
  refine ⟨?_, hempty, ?_⟩
  · rcases h with he | ⟨he, c, hl, hp⟩
    · rw [(hempty he).1, (hempty he).2]
    · exact b.steal_eq_of_free pinned c he hl hp
  · intro hcap
    rcases h with he | ⟨he, c, hl, hp⟩
    · exact ⟨none, b, hempty he⟩
    · refine ⟨some c, { b with cidx_ := (b.cidx_ + 1) % b.capacity_ }, ?_, ?_⟩
      · rw [b.steal_eq_of_free pinned c he hl hp, b.pop_eq_of_load (some c) he hl]
        simp [umod, hcap]
      · rw [b.pop_eq_of_load (some c) he hl]
        simp [umod, hcap]

theorem steal_eq_pop_witness :
    (circular_buffer.empty
        { pidx_ := 0, cidx_ := 3, capacity_ := 4,
          slots_ := [slot.value (some 5), slot.indeterminate, slot.value (some 7),
                     slot.value (some 8)] } = true ∨
      (circular_buffer.empty
        { pidx_ := 0, cidx_ := 3, capacity_ := 4,
          slots_ := [slot.value (some 5), slot.indeterminate, slot.value (some 7),
                     slot.value (some 8)] } = false ∧
        ∃ c, load [slot.value (some 5), slot.indeterminate, slot.value (some 7),
                   slot.value (some 8)] 3 = some (some c) ∧ (fun c => c == 7) c = false)) ∧
    circular_buffer.steal (fun c => c == 7)
        { pidx_ := 0, cidx_ := 3, capacity_ := 4,
          slots_ := [slot.value (some 5), slot.indeterminate, slot.value (some 7),
                     slot.value (some 8)] }
      = circular_buffer.pop
        { pidx_ := 0, cidx_ := 3, capacity_ := 4,
          slots_ := [slot.value (some 5), slot.indeterminate, slot.value (some 7),
                     slot.value (some 8)] } ∧
    circular_buffer.pop
        { pidx_ := 0, cidx_ := 3, capacity_ := 4,
          slots_ := [slot.value (some 5), slot.indeterminate, slot.value (some 7),
                     slot.value (some 8)] }
      = some (some 8,
        { pidx_ := 0, cidx_ := 0, capacity_ := 4,
          slots_ := [slot.value (some 5), slot.indeterminate, slot.value (some 7),
                     slot.value (some 8)] }) :=
  ⟨Or.inr ⟨by decide, 8, by decide, by decide⟩,
   (steal_eq_pop (fun c => c == 7) _ (Or.inr ⟨by decide, 8, by decide, by decide⟩)).1,
   by decide⟩

/-! ## The mutex -/

theorem mutex.lock_of_owner (a : context) (m : mutex) (h : m.owner_ = some a) :
    m.lock a = some { result := completion.threw errc.resource_deadlock_would_occur,
                      calls := [], state := m } := by
  simp [mutex.lock, h]

theorem mutex.lock_of_unlocked (a : context) (m : mutex) (h : m.owner_ = none) :
    m.lock a = some { result := completion.returned (), calls := [],
                      state := { m with owner_ := some a } } := by
  simp [mutex.lock, h]

theorem mutex.lock_of_other (a b : context) (m : mutex) (h : m.owner_ = some a) (hne : b ≠ a) :
    m.lock b = (m.wait_queue_.push (some b)).bind fun wq =>
      some { result := completion.returned (), calls := [call.suspend b true],
             state := { m with wait_queue_ := wq } } := by
  simp [mutex.lock, h, hne]

theorem mutex.unlock_of_other (a : context) (m : mutex) (h : m.owner_ ≠ some a) :
    m.unlock a = some { result := completion.threw errc.operation_not_permitted,
                        calls := [], state := m } := by
  have h' : ¬ (some a = m.owner_) := fun e => h e.symm
  simp [mutex.unlock, h']

theorem mutex.unlock_of_owner (a : context) (m : mutex) (h : m.owner_ = some a) :
    m.unlock a = m.wait_queue_.pop.bind fun r =>
      match r.1 with
      | some c => some { result := completion.returned (), calls := [call.schedule a c],
                         state := { owner_ := some c, wait_queue_ := r.2 } }
      | none => some { result := completion.returned (), calls := [],
                       state := { owner_ := none, wait_queue_ := r.2 } } := by
  unfold mutex.unlock
  rw [if_neg (by rw [h]; exact fun hne => hne rfl)]
  rfl

/-- Claim C7.  When the calling unit is the owner, `lock` and `try_lock` both throw
`lock_error` with `resource_deadlock_would_occur`; the owner and the wait queue are
unchanged and no `suspend`, `yield` or `schedule` is called, so the caller is not
acquired again, enqueued, suspended or yielded. -/
theorem lock_rejects_owner (yield_ : mutex → Option mutex) (a : context) (m : mutex)
    (h : m.owner_ = some a) :
    m.lock a = some { result := completion.threw errc.resource_deadlock_would_occur,
                      calls := [], state := m } ∧
    m.try_lock yield_ a = some { result := completion.threw errc.resource_deadlock_would_occur,
                                 calls := [], state := m } := by
  exact ⟨mutex.lock_of_owner a m h, by simp [mutex.try_lock, h]⟩

theorem lock_rejects_owner_witness :
    ({ owner_ := some 3, wait_queue_ := context_queue.init 4 } : mutex).owner_ = some 3 ∧
    mutex.lock 3 { owner_ := some 3, wait_queue_ := context_queue.init 4 }
      = some { result := completion.threw errc.resource_deadlock_would_occur, calls := [],
               state := { owner_ := some 3, wait_queue_ := context_queue.init 4 } } ∧
    mutex.try_lock (fun _ => none) 3 { owner_ := some 3, wait_queue_ := context_queue.init 4 }
      = some { result := completion.threw errc.resource_deadlock_would_occur, calls := [],
               state := { owner_ := some 3, wait_queue_ := context_queue.init 4 } } :=
  ⟨rfl, lock_rejects_owner (fun _ => none) 3 _ rfl⟩

/-- What `unlock` by the owner does on a well-formed wait queue with a waiter in front. -/
theorem mutex.unlock_handoff (a w : context) (ws : List context) (m : mutex)
    (h : m.owner_ = some a) (hq : m.wait_queue_.holds ((w :: ws).map some)) :
    ∃ wq, m.unlock a = some { result := completion.returned (), calls := [call.schedule a w],
                              state := { owner_ := some w, wait_queue_ := wq } } ∧
      wq.holds (ws.map some) ∧ wq.capacity_ = m.wait_queue_.capacity_ := by
  obtain ⟨wq, h1, h2, h3⟩ := m.wait_queue_.pop_holds_cons (some w) (ws.map some) hq
  refine ⟨wq, ?_, h2, h3⟩
  rw [mutex.unlock_of_owner a m h, h1]
  rfl

/-- What `unlock` by the owner does on a well-formed wait queue without waiters. -/
theorem mutex.unlock_release (a : context) (m : mutex) (h : m.owner_ = some a)
    (hq : m.wait_queue_.holds []) :
    m.unlock a = some { result := completion.returned (), calls := [],
                        state := { owner_ := none, wait_queue_ := m.wait_queue_ } } := by
  rw [mutex.unlock_of_owner a m h, m.wait_queue_.pop_holds_nil hq]
  rfl

/-- What `lock` does when another unit owns the mutex and the wait queue is well formed. -/
theorem mutex.lock_enqueues (a b : context) (ws : List context) (m : mutex)
    (h : m.owner_ = some a) (hne : b ≠ a) (hq : m.wait_queue_.holds (ws.map some)) :
    ∃ wq, m.lock b = some { result := completion.returned (), calls := [call.suspend b true],
                            state := { owner_ := some a, wait_queue_ := wq } } ∧
      wq.holds ((ws ++ [b]).map some) := by
  obtain ⟨wq, h1, h2⟩ := m.wait_queue_.push_holds (ws.map some) (some b) hq
  refine ⟨wq, ?_, by simpa using h2⟩
  rw [mutex.lock_of_other a b m h hne, h1]
  simp [h]

/-- A pointer returned by `pop` on a non-empty queue was read at the consumer index. -/
theorem context_queue.pop_some (q q' : context_queue) (x : context)
    (h : q.pop = some (some x, q')) : load q.slots_ q.cidx_ = some (some x) := by
  unfold context_queue.pop at h
  by_cases he : (! q.is_empty_) = true
  · simp only [he, if_true, Option.bind_eq_bind] at h
    cases hl : load q.slots_ q.cidx_ with
    | none => rw [hl] at h; simp at h
    | some y =>
      rw [hl] at h
      simp only [Option.some_bind] at h
      cases hu : umod (q.cidx_ + 1) q.capacity_ with
      | none => rw [hu] at h; simp at h
      | some i =>
        rw [hu] at h
        simp only [Option.some_bind, Option.some.injEq, Prod.mk.injEq] at h
        rw [h.1]
  · simp [he] at h

/-- A call of `unlock` by the owner never throws, whatever the wait queue is. -/
theorem mutex.unlock_owner_result (a : context) (m : mutex) (h : m.owner_ = some a)
    (o : outcome Unit) (ho : m.unlock a = some o) : o.result = completion.returned () := by
  rw [mutex.unlock_of_owner a m h] at ho
  cases hp : m.wait_queue_.pop with
  | none => rw [hp] at ho; simp at ho
  | some r =>
    obtain ⟨x, wq⟩ := r
    rw [hp] at ho
    cases x with
    | none =>
      simp only [Option.some_bind, Option.some.injEq] at ho
      rw [← ho]
    | some c =>
      simp only [Option.some_bind, Option.some.injEq] at ho
      rw [← ho]

/-- Claim C8.  `unlock` throws `lock_error` with `operation_not_permitted` exactly when
the calling unit is not the owner, which includes every call on an unlocked mutex.
Whenever `unlock` throws, the error is that one, the owner and the wait queue are
unchanged and nothing is scheduled; a call by the owner on a well-formed wait queue
returns normally. -/
theorem unlock_permission (a : context) (m : mutex) :
    (m.unlock a = some { result := completion.threw errc.operation_not_permitted,
                         calls := [], state := m } ↔ m.owner_ ≠ some a) ∧
    (m.owner_ = none →
      m.unlock a = some { result := completion.threw errc.operation_not_permitted,
                          calls := [], state := m }) ∧
    (∀ o e, m.unlock a = some o → o.result = completion.threw e →
      e = errc.operation_not_permitted ∧ m.owner_ ≠ some a ∧ o.state = m ∧ o.calls = []) ∧
    (m.owner_ = some a → ∀ l : List context_ptr, m.wait_queue_.holds l →
      ∃ o, m.unlock a = some o ∧ o.result = completion.returned ()) := by
  refine ⟨⟨?_, mutex.unlock_of_other a m⟩, ?_, ?_, ?_⟩
  · intro hu h
    have := mutex.unlock_owner_result a m h _ hu
    cases this
  · intro h
    exact mutex.unlock_of_other a m (by rw [h]; simp)
  · intro o e ho he
    by_cases h : m.owner_ = some a
    · rw [mutex.unlock_owner_result a m h o ho] at he
      cases he
    · rw [mutex.unlock_of_other a m h] at ho
      simp only [Option.some.injEq] at ho
      subst ho
      simp only [completion.threw.injEq] at he
      exact ⟨he.symm, h, rfl, rfl⟩
  · intro h l hl
    have hex : ∃ o, m.unlock a = some o := by
      rw [mutex.unlock_of_owner a m h]
      cases l with
      | nil =>
        rw [m.wait_queue_.pop_holds_nil hl]
        exact ⟨_, rfl⟩
      | cons x l =>
        obtain ⟨wq, h1, -, -⟩ := m.wait_queue_.pop_holds_cons x l hl
        rw [h1]
        cases x <;> exact ⟨_, rfl⟩
    obtain ⟨o, ho⟩ := hex
    exact ⟨o, ho, mutex.unlock_owner_result a m h o ho⟩

theorem unlock_permission_witness :
    (mutex.unlock 5 { owner_ := some 3, wait_queue_ := context_queue.init 4 }
        = some { result := completion.threw errc.operation_not_permitted, calls := [],
                 state := { owner_ := some 3, wait_queue_ := context_queue.init 4 } }) ∧
    mutex.unlock 5 { owner_ := none, wait_queue_ := context_queue.init 4 }
      = some { result := completion.threw errc.operation_not_permitted, calls := [],
               state := { owner_ := none, wait_queue_ := context_queue.init 4 } } ∧
    ∃ o, mutex.unlock 3 { owner_ := some 3, wait_queue_ := context_queue.init 4 } = some o ∧
      o.result = completion.returned () :=
  ⟨(unlock_permission 5 { owner_ := some 3, wait_queue_ := context_queue.init 4 }).1.2
      (by decide),
   (unlock_permission 5 { owner_ := none, wait_queue_ := context_queue.init 4 }).2.1 rfl,
   (unlock_permission 3 { owner_ := some 3, wait_queue_ := context_queue.init 4 }).2.2.2 rfl []
      (by decide)⟩

/-- Claim C9.  Hand-off fairness.  On a locked mutex whose wait queue holds the waiters
`w :: ws` (oldest first), `unlock` by the owner returns normally, makes `w` the owner,
removes it from the wait queue, schedules exactly `w` and keeps `ws` in order; with no
waiter the owner becomes null, the wait queue is untouched and nothing is scheduled.
In particular, after `lock` by `a`, then by `w1`, then by `w2` on a fresh mutex, the
owner after `unlock` by `a` is `w1` and after `unlock` by `w1` it is `w2`. -/
theorem unlock_hands_off_in_fifo_order :
    (∀ (m : mutex) (a w : context) (ws : List context), m.owner_ = some a →
      m.wait_queue_.holds ((w :: ws).map some) →
      ∃ wq, m.unlock a = some { result := completion.returned (),
                                calls := [call.schedule a w],
                                state := { owner_ := some w, wait_queue_ := wq } } ∧
        wq.holds (ws.map some)) ∧
    (∀ (m : mutex) (a : context), m.owner_ = some a → m.wait_queue_.holds [] →
      m.unlock a = some { result := completion.returned (), calls := [],
                          state := { owner_ := none, wait_queue_ := m.wait_queue_ } }) ∧
    (∀ (capacity : Nat) (a w1 w2 : context), 1 ≤ capacity → w1 ≠ a → w2 ≠ a →
      ∃ o1 o2 o3 o4 o5,
        (mutex.init capacity).lock a = some o1 ∧
        o1.state.lock w1 = some o2 ∧ o2.calls = [call.suspend w1 true] ∧
        o2.state.lock w2 = some o3 ∧ o3.calls = [call.suspend w2 true] ∧
        o3.state.unlock a = some o4 ∧ o4.calls = [call.schedule a w1] ∧
        o4.state.owner_ = some w1 ∧
        o4.state.unlock w1 = some o5 ∧ o5.calls = [call.schedule w1 w2] ∧
        o5.state.owner_ = some w2 ∧ o5.state.wait_queue_.holds []) := by
  refine ⟨?_, ?_, ?_⟩
  · intro m a w ws h hq
    obtain ⟨wq, h1, h2, -⟩ := mutex.unlock_handoff a w ws m h hq
    exact ⟨wq, h1, h2⟩
  · intro m a h hq
    exact mutex.unlock_release a m h hq
  · intro capacity a w1 w2 hcap h1 h2
    have e1 := mutex.lock_of_unlocked a (mutex.init capacity) rfl
    have q0 : (mutex.init capacity).wait_queue_.holds (([] : List context).map some) :=
      context_queue.init_holds capacity hcap
    obtain ⟨wq2, e2, q2⟩ := mutex.lock_enqueues a w1 []
      { mutex.init capacity with owner_ := some a } rfl h1 q0
    obtain ⟨wq3, e3, q3⟩ := mutex.lock_enqueues a w2 [w1]
      { owner_ := some a, wait_queue_ := wq2 } rfl h2 q2
    obtain ⟨wq4, e4, q4, -⟩ := mutex.unlock_handoff a w1 [w2]
      { owner_ := some a, wait_queue_ := wq3 } rfl q3
    obtain ⟨wq5, e5, q5, -⟩ := mutex.unlock_handoff w1 w2 []
      { owner_ := some w1, wait_queue_ := wq4 } rfl q4
    exact ⟨_, _, _, _, _, e1, e2, rfl, e3, rfl, e4, rfl, rfl, e5, rfl, rfl, q5⟩

theorem unlock_hands_off_in_fifo_order_witness :
    ∃ o1 o2 o3 o4 o5,
      (mutex.init 1).lock 10 = some o1 ∧
      o1.state.lock 21 = some o2 ∧ o2.calls = [call.suspend 21 true] ∧
      o2.state.lock 22 = some o3 ∧ o3.calls = [call.suspend 22 true] ∧
      o3.state.unlock 10 = some o4 ∧ o4.calls = [call.schedule 10 21] ∧
      o4.state.owner_ = some 21 ∧
      o4.state.unlock 21 = some o5 ∧ o5.calls = [call.schedule 21 22] ∧
      o5.state.owner_ = some 22 ∧ o5.state.wait_queue_.holds [] :=
  unlock_hands_off_in_fifo_order.2.2 1 10 21 22 (by decide) (by decide) (by decide)

/-- Claim C10.  Mutual exclusion.  The mutex has at most one owner.  When unit `a` owns
the mutex, `lock` by another unit `b` leaves `a` the owner, appends `b` at the tail of
the wait queue and calls `suspend` on `b` with the held state lock; no `lock` and no
`try_lock` by `b` makes `b` the owner while `a` owns the mutex, and an `unlock` after
which `b` is the owner is a call by `a` that schedules `b` from the consumer end of the
wait queue.  On an unlocked mutex `lock` makes the caller the owner and returns without
touching the wait queue. -/
theorem lock_mutual_exclusion :
    (∀ (m : mutex) (a b : context), m.owner_ = some a → m.owner_ = some b → a = b) ∧
    (∀ (m : mutex) (a b : context) (ws : List context), m.owner_ = some a → b ≠ a →
      m.wait_queue_.holds (ws.map some) →
      ∃ wq, m.lock b = some { result := completion.returned (),
                              calls := [call.suspend b true],
                              state := { owner_ := some a, wait_queue_ := wq } } ∧
        wq.holds ((ws ++ [b]).map some)) ∧
    (∀ (m : mutex) (a b : context) (o : outcome Unit), m.owner_ = some a → b ≠ a →
      m.lock b = some o → o.state.owner_ = some a) ∧
    (∀ (m : mutex) (a b c : context) (o : outcome Unit), m.owner_ = some a → b ≠ a →
      m.unlock c = some o → o.state.owner_ = some b →
      c = a ∧ o.calls = [call.schedule a b] ∧ load m.wait_queue_.slots_ m.wait_queue_.cidx_
        = some (some b)) ∧
    (∀ (m : mutex) (a b : context) (yield_ : mutex → Option mutex) (o : outcome Bool),
      m.owner_ = some a → b ≠ a → m.try_lock yield_ b = some o → yield_ m = some o.state) ∧
    (∀ (m : mutex) (b : context), m.owner_ = none →
      m.lock b = some { result := completion.returned (), calls := [],
                        state := { owner_ := some b, wait_queue_ := m.wait_queue_ } }) := by
  refine ⟨?_, ?_, ?_, ?_, ?_, ?_⟩
  · intro m a b ha hb
    rw [ha] at hb
    exact Option.some.inj hb
  · intro m a b ws h hne hq
    exact mutex.lock_enqueues a b ws m h hne hq
  · intro m a b o h hne ho
    rw [mutex.lock_of_other a b m h hne] at ho
    cases hp : m.wait_queue_.push (some b) with
    | none => rw [hp] at ho; simp at ho
    | some wq =>
      rw [hp] at ho
      simp only [Option.some_bind, Option.some.injEq] at ho
      rw [← ho]
      exact h
  · intro m a b c o h hne ho hob
    by_cases hc : c = a
    · subst hc
      refine ⟨rfl, ?_⟩
      rw [mutex.unlock_of_owner c m h] at ho
      cases hp : m.wait_queue_.pop with
      | none => rw [hp] at ho; simp at ho
      | some r =>
        obtain ⟨x, wq⟩ := r
        rw [hp] at ho
        cases x with
        | none =>
          simp only [Option.some_bind, Option.some.injEq] at ho
          subst ho
          simp at hob
        | some y =>
          simp only [Option.some_bind, Option.some.injEq] at ho
          subst ho
          simp only [Option.some.injEq] at hob
          subst hob
          exact ⟨rfl, context_queue.pop_some _ _ _ hp⟩
    · have hoc : m.owner_ ≠ some c := by rw [h]; simpa using fun e => hc e.symm
      rw [mutex.unlock_of_other c m hoc] at ho
      simp only [Option.some.injEq] at ho
      subst ho
      simp only at hob
      rw [h] at hob
      exact absurd (Option.some.inj hob).symm hne
  · intro m a b yield_ o h hne ho
    have h1 : ¬ (some b = m.owner_) := by rw [h]; simpa using hne
    have h2 : ¬ (none = m.owner_) := by rw [h]; simp
    simp only [mutex.try_lock, h1, h2, if_false, Option.bind_eq_bind] at ho
    cases hy : yield_ m with
    | none => rw [hy] at ho; simp at ho
    | some m2 =>
      rw [hy] at ho
      simp only [Option.some_bind, Option.some.injEq] at ho
      rw [← ho]
  · intro m b h
    exact mutex.lock_of_unlocked b m h

theorem lock_mutual_exclusion_witness :
    (∃ wq, mutex.lock 8 { owner_ := some 3, wait_queue_ := context_queue.init 4 }
        = some { result := completion.returned (), calls := [call.suspend 8 true],
                 state := { owner_ := some 3, wait_queue_ := wq } } ∧
      wq.holds [some 8]) ∧
    mutex.lock 8 { owner_ := none, wait_queue_ := context_queue.init 4 }
      = some { result := completion.returned (), calls := [],
               state := { owner_ := some 8, wait_queue_ := context_queue.init 4 } } :=
  ⟨lock_mutual_exclusion.2.1 { owner_ := some 3, wait_queue_ := context_queue.init 4 } 3 8 []
      rfl (by decide) (by decide),
   lock_mutual_exclusion.2.2.2.2.2 { owner_ := none, wait_queue_ := context_queue.init 4 } 8
      rfl⟩

/-! ## `try_lock` by a unit that is not the owner -/

/-- The data members when `try_lock` by `a` reaches `yield()`. -/
theorem mutex.try_lock_of_other (yield_ : mutex → Option mutex) (a : context) (m : mutex)
    (h : m.owner_ ≠ some a) :
    m.try_lock yield_ a =
      (yield_ (if none = m.owner_ then { m with owner_ := some a } else m)).bind fun m2 =>
        some { result := completion.returned (some a == m2.owner_),
               calls := [call.yield a], state := m2 } := by
  unfold mutex.try_lock
  rw [if_neg (fun e => h e.symm)]
  rfl

/-- Claim C11.  A `try_lock` by a unit `a` that is not the owner first makes `a` the
owner when the mutex is unlocked and leaves the owner alone otherwise, in both cases
without touching the wait queue; then it calls `yield` once, and nothing else on the
execution-unit abstraction (no `suspend`); and it returns `true` exactly when `owner_`
is `a` in the state the yield left behind, whatever that state is. -/
theorem try_lock_yields_then_rechecks (yield_ : mutex → Option mutex) (a : context)
    (m : mutex) (h : m.owner_ ≠ some a) :
    ∃ m1 : mutex,
      m1.wait_queue_ = m.wait_queue_ ∧
      (m.owner_ = none → m1.owner_ = some a) ∧
      (m.owner_ ≠ none → m1.owner_ = m.owner_) ∧
      (m.try_lock yield_ a = (yield_ m1).bind fun m2 =>
        some { result := completion.returned (decide (m2.owner_ = some a)),
               calls := [call.yield a], state := m2 }) ∧
      (∀ o, m.try_lock yield_ a = some o →
        yield_ m1 = some o.state ∧ o.calls = [call.yield a] ∧
        (o.result = completion.returned true ↔ o.state.owner_ = some a) ∧
        (o.result = completion.returned false ↔ o.state.owner_ ≠ some a)) := by
  have hbeq : ∀ m2 : mutex, (some a == m2.owner_) = decide (m2.owner_ = some a) := by
    intro m2
    by_cases e : m2.owner_ = some a
    · simp [e]
    · have e' : ¬ (some a = m2.owner_) := fun x => e x.symm
      simp [e, e']
  have heq := mutex.try_lock_of_other yield_ a m h
  simp only [hbeq] at heq
  refine ⟨if none = m.owner_ then { m with owner_ := some a } else m, ?_, ?_, ?_, heq, ?_⟩
  · split_ifs <;> rfl
  · intro h0; rw [if_pos h0.symm]
  · intro h0; rw [if_neg (fun e => h0 e.symm)]
  · intro o ho
    rw [heq] at ho
    cases hy : yield_ (if none = m.owner_ then { m with owner_ := some a } else m) with
    | none => rw [hy] at ho; simp at ho
    | some m2 =>
      rw [hy] at ho
      simp only [Option.some_bind, Option.some.injEq] at ho
      subst ho
      refine ⟨rfl, rfl, ?_, ?_⟩ <;> simp

theorem try_lock_yields_then_rechecks_witness :
    ({ owner_ := none, wait_queue_ := context_queue.init 4 } : mutex).owner_ ≠ some 3 ∧
    ∃ m1 : mutex,
      m1.wait_queue_ = context_queue.init 4 ∧
      (({ owner_ := none, wait_queue_ := context_queue.init 4 } : mutex).owner_ = none →
        m1.owner_ = some 3) ∧
      (({ owner_ := none, wait_queue_ := context_queue.init 4 } : mutex).owner_ ≠ none →
        m1.owner_ = none) ∧
      (mutex.try_lock (fun m => some { m with owner_ := none }) 3
          { owner_ := none, wait_queue_ := context_queue.init 4 }
        = ((fun m => some { m with owner_ := none }) m1).bind fun m2 =>
          some { result := completion.returned (decide (m2.owner_ = some 3)),
                 calls := [call.yield 3], state := m2 }) ∧
      (∀ o, mutex.try_lock (fun m => some { m with owner_ := none }) 3
          { owner_ := none, wait_queue_ := context_queue.init 4 } = some o →
        (fun m => some { m with owner_ := none }) m1 = some o.state ∧
        o.calls = [call.yield 3] ∧
        (o.result = completion.returned true ↔ o.state.owner_ = some 3) ∧
        (o.result = completion.returned false ↔ o.state.owner_ ≠ some 3)) :=
  ⟨by decide,
   try_lock_yields_then_rechecks (fun m => some { m with owner_ := none }) 3
     { owner_ := none, wait_queue_ := context_queue.init 4 } (by decide)⟩

/-! ## Growth and capacity -/

/-- The two statements of `push` after the test for growth, on a well-formed queue. -/
theorem context_queue.store_eq (q : context_queue) (c : context_ptr) (hwf : q.wf) :
    (do
      let slots ← store q.slots_ q.pidx_ c
      let i ← umod (q.pidx_ + 1) q.capacity_
      some { q with slots_ := slots, pidx_ := i }) =
    some { q with slots_ := q.slots_.set q.pidx_ (slot.value c),
                  pidx_ := (q.pidx_ + 1) % q.capacity_ } := by
  obtain ⟨hn, hlen, hp, -⟩ := hwf
  have hp' : q.pidx_ < q.slots_.length := by omega
  simp only [store, if_pos hp', umod, if_neg (Nat.pos_iff_ne_zero.mp hn),
    Option.bind_eq_bind, Option.some_bind]

theorem context_queue.push_of_not_full (q : context_queue) (c : context_ptr) (hwf : q.wf)
    (hne : q.cidx_ ≠ (q.pidx_ + 1) % q.capacity_) :
    q.push c = some { q with slots_ := q.slots_.set q.pidx_ (slot.value c),
                             pidx_ := (q.pidx_ + 1) % q.capacity_ } := by
  have hb : (q.cidx_ == (q.pidx_ + 1) % q.capacity_) = false := by simpa using hne
  unfold context_queue.push
  rw [q.is_full_eq hwf]
  simp only [hb, Option.bind_eq_bind, Option.some_bind]
  exact q.store_eq c hwf

theorem context_queue.push_of_full (q : context_queue) (c : context_ptr) (hwf : q.wf)
    (hfull : q.cidx_ = (q.pidx_ + 1) % q.capacity_) :
    ∃ q1, q.resize_ = some q1 ∧ q1.wf ∧ q1.live = q.live ∧ q1.cidx_ = 0 ∧
      q1.pidx_ = q.capacity_ - 1 ∧ q1.capacity_ = q.capacity_ * 2 ∧
      q.push c = some { q1 with slots_ := q1.slots_.set (q.capacity_ - 1) (slot.value c),
                                pidx_ := q.capacity_ } := by
  obtain ⟨q1, h1, hwf1, hlive1, hc1, hp1, hcap1⟩ := q.resize_spec hwf hfull
  refine ⟨q1, h1, hwf1, hlive1, hc1, hp1, hcap1, ?_⟩
  have hb : (q.cidx_ == (q.pidx_ + 1) % q.capacity_) = true := by simpa using hfull
  unfold context_queue.push
  rw [q.is_full_eq hwf]
  simp only [hb, if_true, Option.bind_eq_bind, Option.some_bind, h1]
  have := q1.store_eq c hwf1
  simp only [Option.bind_eq_bind] at this
  rw [this, hp1, hcap1]
  obtain ⟨hn, -, -, -⟩ := hwf
  have hmod : (q.capacity_ - 1 + 1) % (q.capacity_ * 2) = q.capacity_ := by
    rw [Nat.sub_add_cancel hn]
    exact Nat.mod_eq_of_lt (by omega)
  rw [hmod]

/-- The number of live elements of a full well-formed queue. -/
theorem context_queue.live_length_of_full (q : context_queue) (hwf : q.wf) :
    q.cidx_ = (q.pidx_ + 1) % q.capacity_ ↔ q.live.length = q.capacity_ - 1 := by
  have hlen := q.live_length hwf
  obtain ⟨hn, -, hp, hc⟩ := hwf
  constructor
  · intro hfull
    rcases full_cases hp hfull with ⟨hc0, hpn⟩ | ⟨hc0, hpc⟩
    · rw [hlen, if_pos (by omega)]; omega
    · rw [hlen, if_neg (by omega)]; omega
  · intro hl
    rw [hlen] at hl
    by_cases hw : q.pidx_ + 1 < q.capacity_
    · rw [Nat.mod_eq_of_lt hw]
      split_ifs at hl <;> omega
    · have hpl : q.pidx_ + 1 = q.capacity_ := by omega
      rw [hpl, Nat.mod_self]
      split_ifs at hl <;> omega

/-- Claim C13.  When `push` finds a well-formed queue full, `resize_` gives a queue of
exactly double the capacity with consumer index 0 and producer index the old capacity
minus 1, which is the number of live handles, all of them kept in order; only then is
the pushed handle stored, at that producer index, and the producer index advanced to
the old capacity. -/
theorem growth_resets_indices (q : context_queue) (c : context_ptr) (hwf : q.wf)
    (hfull : q.cidx_ = (q.pidx_ + 1) % q.capacity_) :
    ∃ q1, q.resize_ = some q1 ∧
      q1.capacity_ = 2 * q.capacity_ ∧ q1.cidx_ = 0 ∧ q1.pidx_ = q.capacity_ - 1 ∧
      q1.pidx_ = q.live.length ∧ q1.live = q.live ∧ q1.slots_.length = 2 * q.capacity_ ∧
      q.push c = some { pidx_ := q.capacity_, cidx_ := 0, capacity_ := 2 * q.capacity_,
                        slots_ := q1.slots_.set (q.capacity_ - 1) (slot.value c) } := by
  obtain ⟨q1, h1, hwf1, hlive1, hc1, hp1, hcap1, hpush⟩ := q.push_of_full c hwf hfull
  have hl := (q.live_length_of_full hwf).mp hfull
  refine ⟨q1, h1, by omega, hc1, hp1, by omega, hlive1, ?_, ?_⟩
  · obtain ⟨-, hlen1, -, -⟩ := hwf1
    omega
  · rw [hpush, hc1, hcap1, Nat.mul_comm]

theorem growth_resets_indices_witness :
    (context_queue.wf
        { pidx_ := 1, cidx_ := 2, capacity_ := 4,
          slots_ := [slot.value (some 5), slot.indeterminate, slot.value (some 3),
                     slot.value (some 4)] } ∧ 2 = (1 + 1) % 4) ∧
    ∃ q1, context_queue.resize_
        { pidx_ := 1, cidx_ := 2, capacity_ := 4,
          slots_ := [slot.value (some 5), slot.indeterminate, slot.value (some 3),
                     slot.value (some 4)] } = some q1 ∧
      q1.capacity_ = 2 * 4 ∧ q1.cidx_ = 0 ∧ q1.pidx_ = 4 - 1 ∧
      q1.pidx_ = [slot.value (some 3), slot.value (some 4), slot.value (some 5)].length ∧
      q1.live = [slot.value (some 3), slot.value (some 4), slot.value (some 5)] ∧
      q1.slots_.length = 2 * 4 ∧
      context_queue.push (some 6)
        { pidx_ := 1, cidx_ := 2, capacity_ := 4,
          slots_ := [slot.value (some 5), slot.indeterminate, slot.value (some 3),
                     slot.value (some 4)] }
        = some { pidx_ := 4, cidx_ := 0, capacity_ := 2 * 4,
                 slots_ := q1.slots_.set (4 - 1) (slot.value (some 6)) } :=
  ⟨⟨by decide, by decide⟩,
   growth_resets_indices _ (some 6) (by decide) (by decide)⟩

/-- Whatever the state, a defined `resize_` doubles the capacity. -/
theorem context_queue.resize_capacity (q q' : context_queue) (h : q.resize_ = some q') :
    q'.capacity_ = q.capacity_ * 2 := by
  by_cases hg : q.capacity_ = 0 ∨ q.capacity_ < q.cidx_
  · simp [context_queue.resize_, hg] at h
  · simp only [context_queue.resize_, if_neg hg, Option.bind_eq_bind] at h
    cases h1 : memcpy (new_slots (2 * q.capacity_)) 0 q.slots_ q.cidx_
        (q.capacity_ - q.cidx_) with
    | none => rw [h1] at h; simp at h
    | some s1 =>
      rw [h1] at h
      simp only [Option.some_bind] at h
      by_cases hc : 0 < q.cidx_
      · simp only [if_pos hc] at h
        cases h2 : memcpy s1 (q.capacity_ - q.cidx_) q.slots_ 0 q.pidx_ with
        | none => rw [h2] at h; simp at h
        | some s2 =>
          rw [h2] at h
          simp only [Option.some_bind, Option.some.injEq] at h
          rw [← h]
      · simp only [if_neg hc, Option.some_bind, Option.some.injEq] at h
        rw [← h]

/-- The two statements of `push` after the test for growth keep the capacity. -/
theorem context_queue.store_capacity (q1 q' : context_queue) (c : context_ptr)
    (h : ((store q1.slots_ q1.pidx_ c).bind fun slots =>
        (umod (q1.pidx_ + 1) q1.capacity_).bind fun i =>
          some { q1 with slots_ := slots, pidx_ := i }) = some q') :
    q'.capacity_ = q1.capacity_ := by
  cases hs : store q1.slots_ q1.pidx_ c with
  | none => rw [hs] at h; simp at h
  | some s1 =>
    rw [hs] at h
    simp only [Option.some_bind] at h
    cases hu : umod (q1.pidx_ + 1) q1.capacity_ with
    | none => rw [hu] at h; simp at h
    | some i =>
      rw [hu] at h
      simp only [Option.some_bind, Option.some.injEq] at h
      rw [← h]

/-- Whatever the state, a defined `push` keeps the capacity when the queue is not full
and doubles it when the queue is full. -/
theorem context_queue.push_capacity (q q' : context_queue) (c : context_ptr)
    (h : q.push c = some q') :
    ∃ full, q.is_full_ = some full ∧
      q'.capacity_ = if full = true then q.capacity_ * 2 else q.capacity_ := by
  unfold context_queue.push at h
  cases hf : q.is_full_ with
  | none => rw [hf] at h; simp at h
  | some full =>
    refine ⟨full, rfl, ?_⟩
    rw [hf] at h
    cases full with
    | false =>
      simp only [Option.bind_eq_bind, Option.some_bind, Bool.false_eq_true, if_false] at h ⊢
      exact q.store_capacity q' c h
    | true =>
      simp only [Option.bind_eq_bind, Option.some_bind, if_true] at h ⊢
      cases hr : q.resize_ with
      | none => rw [hr] at h; simp at h
      | some q1 =>
        rw [hr] at h
        simp only [Option.some_bind] at h
        rw [q1.store_capacity q' c h, q.resize_capacity q1 hr]

/-- Whatever the state, a defined `pop` keeps the capacity. -/
theorem context_queue.pop_capacity (q q' : context_queue) (r : context_ptr)
    (h : q.pop = some (r, q')) : q'.capacity_ = q.capacity_ := by
  unfold context_queue.pop at h
  by_cases he : (! q.is_empty_) = true
  · simp only [he, if_true, Option.bind_eq_bind] at h
    cases hl : load q.slots_ q.cidx_ with
    | none => rw [hl] at h; simp at h
    | some y =>
      rw [hl] at h
      simp only [Option.some_bind] at h
      cases hu : umod (q.cidx_ + 1) q.capacity_ with
      | none => rw [hu] at h; simp at h
      | some i =>
        rw [hu] at h
        simp only [Option.some_bind, Option.some.injEq, Prod.mk.injEq] at h
        rw [← h.2]
  · simp only [he, Bool.false_eq_true, if_false, Option.some.injEq, Prod.mk.injEq] at h
    rw [← h.2]

theorem circular_buffer.is_full_to_queue (b : circular_buffer) :
    b.is_full_ = b.to_queue.is_full_ := rfl

theorem circular_buffer.buffer_push_capacity (b b' : circular_buffer) (c : context_ptr)
    (h : b.push c = some b') :
    ∃ full, b.is_full_ = some full ∧
      b'.capacity_ = if full = true then b.capacity_ * 2 else b.capacity_ := by
  have h1 := b.push_to_queue c
  rw [h] at h1
  exact b.to_queue.push_capacity b'.to_queue c h1.symm

theorem circular_buffer.buffer_pop_capacity (b b' : circular_buffer) (r : context_ptr)
    (h : b.pop = some (r, b')) : b'.capacity_ = b.capacity_ := by
  have h1 := b.pop_to_queue
  rw [h] at h1
  exact b.to_queue.pop_capacity b'.to_queue r h1.symm

theorem circular_buffer.steal_capacity (pinned : context → Bool) (b b' : circular_buffer)
    (r : context_ptr) (h : b.steal pinned = some (r, b')) : b'.capacity_ = b.capacity_ := by
  unfold circular_buffer.steal at h
  by_cases he : (! b.empty) = true
  · simp only [he, if_true, Option.bind_eq_bind] at h
    cases hl : load b.slots_ b.cidx_ with
    | none => rw [hl] at h; simp at h
    | some x =>
      rw [hl] at h
      cases x with
      | none => simp at h
      | some ctx =>
        simp only [Option.some_bind] at h
        by_cases hp : pinned ctx = true
        · simp only [hp, if_true, Option.some.injEq, Prod.mk.injEq] at h
          rw [← h.2]
        · simp only [hp, Bool.false_eq_true, if_false] at h
          cases hu : umod (b.cidx_ + 1) b.capacity_ with
          | none => rw [hu] at h; simp at h
          | some i =>
            rw [hu] at h
            simp only [Option.some_bind, Option.some.injEq, Prod.mk.injEq] at h
            rw [← h.2]
  · simp only [he, Bool.false_eq_true, if_false, Option.some.injEq, Prod.mk.injEq] at h
    rw [← h.2]

/-- On a well-formed queue `push` is defined; it doubles the capacity exactly when
`is_full_` answers true, which is exactly when `capacity_ - 1` elements are live. -/
theorem context_queue.push_doubles_iff_full (q : context_queue) (c : context_ptr)
    (hwf : q.wf) :
    ∃ q', q.push c = some q' ∧ q'.wf ∧
      (q'.capacity_ = 2 * q.capacity_ ↔ q.is_full_ = some true) ∧
      (q'.capacity_ = q.capacity_ ↔ q.is_full_ = some false) ∧
      (q.is_full_ = some true ↔ q.live.length = q.capacity_ - 1) := by
  obtain ⟨q', hpush, hwf', -⟩ := q.push_spec c hwf
  obtain ⟨full, hf, hcap⟩ := q.push_capacity q' c hpush
  have hn : 1 ≤ q.capacity_ := hwf.1
  refine ⟨q', hpush, hwf', ?_, ?_, ?_⟩
  · rw [hf, hcap]
    cases full
    · simp; omega
    · simp; omega
  · rw [hf, hcap]
    cases full
    · simp
    · simp; omega
  · rw [q.is_full_eq hwf, ← q.live_length_of_full hwf]
    simp

theorem circular_buffer.buffer_push_doubles_iff_full (b : circular_buffer) (c : context_ptr)
    (hwf : b.wf) :
    ∃ b', b.push c = some b' ∧ b'.wf ∧
      (b'.capacity_ = 2 * b.capacity_ ↔ b.is_full_ = some true) ∧
      (b'.capacity_ = b.capacity_ ↔ b.is_full_ = some false) ∧
      (b.is_full_ = some true ↔ b.live.length = b.capacity_ - 1) := by
  obtain ⟨q', h1, h2⟩ := b.to_queue.push_doubles_iff_full c hwf
  rw [← b.push_to_queue] at h1
  cases hb : b.push c with
  | none => rw [hb] at h1; simp at h1
  | some b' =>
    rw [hb] at h1
    simp only [Option.map_some', Option.some.injEq] at h1
    subst h1
    exact ⟨b', rfl, h2⟩

/-- Claim C16.  Shrinking never occurs.  Whatever the state, a defined `pop` or `steal`
leaves `capacity_` unchanged and a defined `push` leaves it unchanged or exactly
doubles it, so the capacity after an operation is never below the capacity before.
On a well-formed queue or deque buffer `push` is defined and doubles the capacity
exactly when `is_full_` is true at the time of the push, which is exactly when
`capacity_ - 1` handles are live. -/
theorem capacity_never_shrinks :
    (∀ (q q' : context_queue) (r : context_ptr),
      q.pop = some (r, q') → q'.capacity_ = q.capacity_) ∧
    (∀ (b b' : circular_buffer) (r : context_ptr),
      b.pop = some (r, b') → b'.capacity_ = b.capacity_) ∧
    (∀ (pinned : context → Bool) (b b' : circular_buffer) (r : context_ptr),
      b.steal pinned = some (r, b') → b'.capacity_ = b.capacity_) ∧
    (∀ (q q' : context_queue) (c : context_ptr), q.push c = some q' →
      q.capacity_ ≤ q'.capacity_ ∧
      (q'.capacity_ = q.capacity_ ∨ q'.capacity_ = 2 * q.capacity_)) ∧
    (∀ (b b' : circular_buffer) (c : context_ptr), b.push c = some b' →
      b.capacity_ ≤ b'.capacity_ ∧
      (b'.capacity_ = b.capacity_ ∨ b'.capacity_ = 2 * b.capacity_)) ∧
    (∀ (q : context_queue) (c : context_ptr), q.wf →
      ∃ q', q.push c = some q' ∧ q'.wf ∧
        (q'.capacity_ = 2 * q.capacity_ ↔ q.is_full_ = some true) ∧
        (q'.capacity_ = q.capacity_ ↔ q.is_full_ = some false) ∧
        (q.is_full_ = some true ↔ q.live.length = q.capacity_ - 1)) ∧
    (∀ (b : circular_buffer) (c : context_ptr), b.wf →
      ∃ b', b.push c = some b' ∧ b'.wf ∧
        (b'.capacity_ = 2 * b.capacity_ ↔ b.is_full_ = some true) ∧
        (b'.capacity_ = b.capacity_ ↔ b.is_full_ = some false) ∧
        (b.is_full_ = some true ↔ b.live.length = b.capacity_ - 1)) := by
  refine ⟨context_queue.pop_capacity, circular_buffer.buffer_pop_capacity,
    circular_buffer.steal_capacity, ?_, ?_, context_queue.push_doubles_iff_full,
    circular_buffer.buffer_push_doubles_iff_full⟩
  · intro q q' c h
    obtain ⟨full, -, hcap⟩ := q.push_capacity q' c h
    cases full
    · simp only [Bool.false_eq_true, if_false] at hcap
      exact ⟨by omega, Or.inl hcap⟩
    · simp only [if_true] at hcap
      exact ⟨by omega, Or.inr (by omega)⟩
  · intro b b' c h
    obtain ⟨full, -, hcap⟩ := b.buffer_push_capacity b' c h
    cases full
    · simp only [Bool.false_eq_true, if_false] at hcap
      exact ⟨by omega, Or.inl hcap⟩
    · simp only [if_true] at hcap
      exact ⟨by omega, Or.inr (by omega)⟩

theorem capacity_never_shrinks_witness :
    (∃ q', context_queue.push (some 6)
        { pidx_ := 1, cidx_ := 2, capacity_ := 4,
          slots_ := [slot.value (some 5), slot.indeterminate, slot.value (some 3),
                     slot.value (some 4)] } = some q' ∧ q'.wf ∧
      (q'.capacity_ = 2 * 4 ↔
        context_queue.is_full_
          { pidx_ := 1, cidx_ := 2, capacity_ := 4,
            slots_ := [slot.value (some 5), slot.indeterminate, slot.value (some 3),
                       slot.value (some 4)] } = some true) ∧
      (q'.capacity_ = 4 ↔
        context_queue.is_full_
          { pidx_ := 1, cidx_ := 2, capacity_ := 4,
            slots_ := [slot.value (some 5), slot.indeterminate, slot.value (some 3),
                       slot.value (some 4)] } = some false) ∧
      (context_queue.is_full_
          { pidx_ := 1, cidx_ := 2, capacity_ := 4,
            slots_ := [slot.value (some 5), slot.indeterminate, slot.value (some 3),
                       slot.value (some 4)] } = some true ↔
        [slot.value (some 3), slot.value (some 4), slot.value (some 5)].length = 4 - 1)) ∧
    (∀ b' r, circular_buffer.steal (fun _ => false) (circular_buffer.init 2) = some (r, b') →
      b'.capacity_ = 2) :=
  ⟨capacity_never_shrinks.2.2.2.2.2.1 _ (some 6) (by decide),
   fun b' r h => capacity_never_shrinks.2.2.1 (fun _ => false) (circular_buffer.init 2) b' r h⟩

/-! ## The index invariant -/

/-- The number of elements between the two indices of a ring of `cap` slots. -/
theorem ring_count_facts (c p cap n : Nat) (hc : c < cap) (hp : p < cap)
    (hn : n = if c ≤ p then p - c else cap - c + p) :
    n ≤ cap - 1 ∧ (n : Int) = ((p : Int) - (c : Int)) % (cap : Int) ∧ (p = c ↔ n = 0) := by
  by_cases hcp : c ≤ p
  · rw [if_pos hcp] at hn
    refine ⟨by omega, ?_, by omega⟩
    have h1 : ((p : Int) - (c : Int)) % (cap : Int) = (p : Int) - (c : Int) :=
      Int.emod_eq_of_lt (by omega) (by omega)
    rw [h1]; omega
  · rw [if_neg hcp] at hn
    refine ⟨by omega, ?_, by omega⟩
    have h1 : ((p : Int) - (c : Int)) % (cap : Int)
        = ((p : Int) - (c : Int) + (cap : Int)) % (cap : Int) := by
      rw [Int.add_emod_self]
    have h2 : ((p : Int) - (c : Int) + (cap : Int)) % (cap : Int)
        = (p : Int) - (c : Int) + (cap : Int) :=
      Int.emod_eq_of_lt (by omega) (by omega)
    rw [h1, h2]; omega

/-- The index facts of a well-formed queue in terms of the number of live elements. -/
theorem context_queue.index_facts (q : context_queue) (hwf : q.wf) :
    q.live.length ≤ q.capacity_ - 1 ∧
    (q.live.length : Int) = ((q.pidx_ : Int) - (q.cidx_ : Int)) % (q.capacity_ : Int) ∧
    (q.empty = true ↔ q.pidx_ = q.cidx_) ∧
    (q.pidx_ = q.cidx_ ↔ q.live.length = 0) ∧
    (q.is_full_ = some true ↔ q.cidx_ = (q.pidx_ + 1) % q.capacity_) ∧
    (q.cidx_ = (q.pidx_ + 1) % q.capacity_ ↔ q.live.length = q.capacity_ - 1) := by
  have hlen := q.live_length hwf
  have hfull := q.live_length_of_full hwf
  have hisfull := q.is_full_eq hwf
  obtain ⟨-, -, hp, hc⟩ := hwf
  obtain ⟨h1, h2, h3⟩ := ring_count_facts q.cidx_ q.pidx_ q.capacity_ q.live.length hc hp hlen
  refine ⟨h1, h2, ?_, h3, ?_, hfull⟩
  · simp only [context_queue.empty, context_queue.is_empty_, beq_iff_eq]
    exact ⟨fun h => h.symm, fun h => h.symm⟩
  · rw [hisfull]; simp

theorem circular_buffer.buffer_index_facts (b : circular_buffer) (hwf : b.wf) :
    b.live.length ≤ b.capacity_ - 1 ∧
    (b.live.length : Int) = ((b.pidx_ : Int) - (b.cidx_ : Int)) % (b.capacity_ : Int) ∧
    (b.empty = true ↔ b.pidx_ = b.cidx_) ∧
    (b.pidx_ = b.cidx_ ↔ b.live.length = 0) ∧
    (b.is_full_ = some true ↔ b.cidx_ = (b.pidx_ + 1) % b.capacity_) ∧
    (b.cidx_ = (b.pidx_ + 1) % b.capacity_ ↔ b.live.length = b.capacity_ - 1) :=
  b.to_queue.index_facts hwf

/-- Claim C14.  In every state reached from a fresh queue of capacity at least 1 by
`push`/`pop`, and from a fresh deque buffer by `push`/`pop`/`steal`, let `n` be the
number of pushes minus the number of non-null removals.  Then `n ≤ capacity_ - 1`,
`n` is `(pidx_ - cidx_)` modulo `capacity_`, `empty()` holds iff `pidx_ = cidx_` iff
`n = 0`, and `is_full_()` holds iff `cidx_ = (pidx_ + 1) % capacity_` iff
`n = capacity_ - 1`. -/
theorem index_invariant :
    (∀ (capacity : Nat) (ops : List queue_op), 1 ≤ capacity →
      ∃ (rs : List context_ptr) (q : context_queue),
        (context_queue.init capacity).run ops = some (rs, q) ∧
        (rs.filterMap id).length ≤ (queue_op.pushes ops).length ∧
        (queue_op.pushes ops).length - (rs.filterMap id).length ≤ q.capacity_ - 1 ∧
        (((queue_op.pushes ops).length - (rs.filterMap id).length : Nat) : Int)
          = ((q.pidx_ : Int) - (q.cidx_ : Int)) % (q.capacity_ : Int) ∧
        (q.empty = true ↔ q.pidx_ = q.cidx_) ∧
        (q.pidx_ = q.cidx_ ↔ (queue_op.pushes ops).length - (rs.filterMap id).length = 0) ∧
        (q.is_full_ = some true ↔ q.cidx_ = (q.pidx_ + 1) % q.capacity_) ∧
        (q.cidx_ = (q.pidx_ + 1) % q.capacity_ ↔
          (queue_op.pushes ops).length - (rs.filterMap id).length = q.capacity_ - 1)) ∧
    (∀ (pinned : context → Bool) (capacity : Nat) (ops : List deque_op), 1 ≤ capacity →
      ∃ (evs : List deque_event) (b : circular_buffer),
        (circular_buffer.init capacity).run pinned ops = some (evs, b) ∧
        (deque_event.handles evs).length ≤ (deque_op.pushes ops).length ∧
        (deque_op.pushes ops).length - (deque_event.handles evs).length ≤ b.capacity_ - 1 ∧
        (((deque_op.pushes ops).length - (deque_event.handles evs).length : Nat) : Int)
          = ((b.pidx_ : Int) - (b.cidx_ : Int)) % (b.capacity_ : Int) ∧
        (b.empty = true ↔ b.pidx_ = b.cidx_) ∧
        (b.pidx_ = b.cidx_ ↔
          (deque_op.pushes ops).length - (deque_event.handles evs).length = 0) ∧
        (b.is_full_ = some true ↔ b.cidx_ = (b.pidx_ + 1) % b.capacity_) ∧
        (b.cidx_ = (b.pidx_ + 1) % b.capacity_ ↔
          (deque_op.pushes ops).length - (deque_event.handles evs).length
            = b.capacity_ - 1)) := by
  constructor
  · intro capacity ops hcap
    obtain ⟨q, h1, h2⟩ := context_queue.run_spec ops (context_queue.init capacity) []
      (context_queue.init_holds capacity hcap)
    have h3 := fifo_run_conserve ops []
    simp only [List.nil_append] at h3
    have hlen : ((fifo_run ops []).1.filterMap id).length + (fifo_run ops []).2.length
        = (queue_op.pushes ops).length := by
      rw [← h3, List.length_append]
    have hlive : q.live.length = (fifo_run ops []).2.length := by
      rw [h2.2]; simp
    have hn : (queue_op.pushes ops).length - ((fifo_run ops []).1.filterMap id).length
        = q.live.length := by omega
    obtain ⟨f1, f2, f3, f4, f5, f6⟩ := q.index_facts h2.1
    refine ⟨_, q, h1, by omega, ?_, ?_, f3, ?_, f5, ?_⟩
    · rw [hn]; exact f1
    · rw [hn]; exact f2
    · rw [hn]; exact f4
    · rw [hn]; exact f6
  · intro pinned capacity ops hcap
    obtain ⟨b, h1, h2⟩ := circular_buffer.buffer_run_spec pinned ops
      (circular_buffer.init capacity) [] (circular_buffer.buffer_init_holds capacity hcap)
    have h3 := deque_ref_run_conserve pinned ops []
    simp only [List.nil_append] at h3
    have hlen : (deque_event.handles (deque_ref_run pinned ops []).1).length
        + (deque_ref_run pinned ops []).2.length = (deque_op.pushes ops).length := by
      rw [← h3, List.length_append]
    have hlive : b.live.length = (deque_ref_run pinned ops []).2.length := by
      rw [h2.2]; simp
    have hn : (deque_op.pushes ops).length
        - (deque_event.handles (deque_ref_run pinned ops []).1).length = b.live.length := by
      omega
    obtain ⟨f1, f2, f3, f4, f5, f6⟩ := b.buffer_index_facts h2.1
    refine ⟨_, b, h1, by omega, ?_, ?_, f3, ?_, f5, ?_⟩
    · rw [hn]; exact f1
    · rw [hn]; exact f2
    · rw [hn]; exact f4
    · rw [hn]; exact f6

theorem index_invariant_witness :
    ∃ (rs : List context_ptr) (q : context_queue),
      (context_queue.init 2).run
        [queue_op.push 1, queue_op.push 2, queue_op.pop, queue_op.push 3] = some (rs, q) ∧
      (rs.filterMap id).length ≤ 3 ∧
      3 - (rs.filterMap id).length ≤ q.capacity_ - 1 ∧
      ((3 - (rs.filterMap id).length : Nat) : Int)
        = ((q.pidx_ : Int) - (q.cidx_ : Int)) % (q.capacity_ : Int) ∧
      (q.empty = true ↔ q.pidx_ = q.cidx_) ∧
      (q.pidx_ = q.cidx_ ↔ 3 - (rs.filterMap id).length = 0) ∧
      (q.is_full_ = some true ↔ q.cidx_ = (q.pidx_ + 1) % q.capacity_) ∧
      (q.cidx_ = (q.pidx_ + 1) % q.capacity_ ↔
        3 - (rs.filterMap id).length = q.capacity_ - 1) :=
  index_invariant.1 2
    [queue_op.push 1, queue_op.push 2, queue_op.pop, queue_op.push 3] (by decide)

/-! ## Index safety -/

theorem memcpy_length {dst src r : List slot} {dpos spos n : Nat}
    (h : memcpy dst dpos src spos n = some r) : r.length = dst.length := by
  unfold memcpy at h
  split_ifs at h with hb
  simp only [Option.some.injEq] at h
  subst h
  simp only [List.length_append, List.length_take, List.length_drop]
  omega

/-- On every well-formed queue both copies of `resize_` stay inside their arrays, so
`resize_` is defined, and its result is well formed. -/
theorem context_queue.resize_defined (q : context_queue) (hwf : q.wf) :
    q.cidx_ + (q.capacity_ - q.cidx_) ≤ q.slots_.length ∧
    0 + (q.capacity_ - q.cidx_) ≤ 2 * q.capacity_ ∧
    0 + q.pidx_ ≤ q.slots_.length ∧
    (q.capacity_ - q.cidx_) + q.pidx_ ≤ 2 * q.capacity_ ∧
    ∃ q', q.resize_ = some q' ∧ q'.wf ∧ q'.capacity_ = 2 * q.capacity_ := by
  obtain ⟨hn, hlen, hp, hc⟩ := hwf
  refine ⟨by omega, by omega, by omega, by omega, ?_⟩
  have hguard : ¬ (q.capacity_ = 0 ∨ q.capacity_ < q.cidx_) := by omega
  cases h1 : memcpy (new_slots (2 * q.capacity_)) 0 q.slots_ q.cidx_
      (q.capacity_ - q.cidx_) with
  | none =>
    rw [memcpy_eq (by omega) (by simp [new_slots]; omega)] at h1
    simp at h1
  | some s1 =>
    have hl1 : s1.length = 2 * q.capacity_ := by
      rw [memcpy_length h1]; simp [new_slots]
    cases h2 : (if 0 < q.cidx_ then memcpy s1 (q.capacity_ - q.cidx_) q.slots_ 0 q.pidx_
        else some s1) with
    | none =>
      split_ifs at h2 with hpos
      rw [memcpy_eq (by omega) (by omega)] at h2
      simp at h2
    | some s2 =>
      have hl2 : s2.length = 2 * q.capacity_ := by
        split_ifs at h2 with hpos
        · rw [memcpy_length h2]; exact hl1
        · simp only [Option.some.injEq] at h2
          rw [← h2]; exact hl1
      refine ⟨{ pidx_ := q.capacity_ - 1, cidx_ := 0, capacity_ := q.capacity_ * 2,
                slots_ := s2 }, ?_, ⟨?_, ?_, ?_, ?_⟩, ?_⟩
      · simp only [context_queue.resize_, if_neg hguard, Option.bind_eq_bind, h1,
          Option.some_bind]
        by_cases hpos : 0 < q.cidx_
        · rw [if_pos hpos] at h2 ⊢
          rw [h2]; rfl
        · rw [if_neg hpos] at h2 ⊢
          simp only [Option.some.injEq] at h2
          rw [h2]
      · show 1 ≤ q.capacity_ * 2
        omega
      · show s2.length = q.capacity_ * 2
        omega
      · show q.capacity_ - 1 < q.capacity_ * 2
        omega
      · show 0 < q.capacity_ * 2
        omega
      · show q.capacity_ * 2 = 2 * q.capacity_
        omega

theorem circular_buffer.buffer_resize_defined (b : circular_buffer) (hwf : b.wf) :
    b.cidx_ + (b.capacity_ - b.cidx_) ≤ b.slots_.length ∧
    0 + (b.capacity_ - b.cidx_) ≤ 2 * b.capacity_ ∧
    0 + b.pidx_ ≤ b.slots_.length ∧
    (b.capacity_ - b.cidx_) + b.pidx_ ≤ 2 * b.capacity_ ∧
    ∃ b', b.resize_ = some b' ∧ b'.wf ∧ b'.capacity_ = 2 * b.capacity_ := by
  obtain ⟨h1, h2, h3, h4, q', h5, h6⟩ := b.to_queue.resize_defined hwf
  refine ⟨h1, h2, h3, h4, ?_⟩
  rw [← b.resize_to_queue] at h5
  cases hb : b.resize_ with
  | none => rw [hb] at h5; simp at h5
  | some b' =>
    rw [hb] at h5
    simp only [Option.map_some', Option.some.injEq] at h5
    subst h5
    exact ⟨b', rfl, h6⟩

theorem context_queue.empty_of_holds_nil (q : context_queue) (h : q.holds []) :
    q.empty = true := by
  obtain ⟨-, -, f3, f4, -, -⟩ := q.index_facts h.1
  rw [f3, f4, h.2]
  rfl

/-- On a queue that holds handles `pop` is defined, and when the queue is not empty the
pointer it returns was read from a written element at the consumer index. -/
theorem context_queue.pop_reads_written (q : context_queue) (l : List context)
    (h : q.holds (l.map some)) :
    ∃ r q', q.pop = some (r, q') ∧ (q.empty = false → load q.slots_ q.cidx_ = some r) := by
  cases l with
  | nil =>
    refine ⟨none, q, q.pop_holds_nil h, ?_⟩
    intro he
    rw [q.empty_of_holds_nil h] at he
    cases he
  | cons x l =>
    obtain ⟨q', h1, -, -⟩ := q.pop_holds_cons (some x) (l.map some) h
    exact ⟨some x, q', h1, fun _ => context_queue.pop_some q q' x h1⟩

theorem circular_buffer.buffer_pop_reads_written (b : circular_buffer) (l : List context)
    (h : b.holds (l.map some)) :
    ∃ r b', b.pop = some (r, b') ∧ (b.empty = false → load b.slots_ b.cidx_ = some r) := by
  cases l with
  | nil =>
    refine ⟨none, b, b.buffer_pop_holds_nil h, ?_⟩
    intro he
    have := b.to_queue.empty_of_holds_nil h
    have he' : b.to_queue.empty = false := he
    rw [this] at he'
    cases he'
  | cons x l =>
    obtain ⟨b', h1, -, -⟩ := b.buffer_pop_holds_cons (some x) (l.map some) h
    exact ⟨some x, b', h1, fun _ => (b.front_of_holds (some x) (l.map some) h).2⟩

/-- On a deque buffer that holds handles `steal` is defined, and when the buffer is not
empty it has read a written, non-null element at the consumer index. -/
theorem circular_buffer.steal_reads_written (pinned : context → Bool) (b : circular_buffer)
    (l : List context) (h : b.holds (l.map some)) :
    ∃ r b', b.steal pinned = some (r, b') ∧
      (b.empty = false → ∃ c, load b.slots_ b.cidx_ = some (some c)) := by
  cases l with
  | nil =>
    refine ⟨none, b, b.steal_holds_nil pinned h, ?_⟩
    intro he
    have := b.to_queue.empty_of_holds_nil h
    have he' : b.to_queue.empty = false := he
    rw [this] at he'
    cases he'
  | cons x l =>
    have hfront := (b.front_of_holds (some x) (l.map some) h).2
    by_cases hp : pinned x = true
    · exact ⟨none, b, b.steal_holds_pinned pinned x (l.map some) h hp, fun _ => ⟨x, hfront⟩⟩
    · have hp' : pinned x = false := by simpa using hp
      obtain ⟨b', h1, -, -⟩ := b.steal_holds_free pinned x (l.map some) h hp'
      exact ⟨some x, b', h1, fun _ => ⟨x, hfront⟩⟩

/-- Claim C18.  Index safety.  Every sequence of `push`/`pop` calls on a queue, and of
`push`/`pop`/`steal` calls on a deque buffer, constructed with capacity at least 1 is
defined: no call divides by zero, indexes outside the slot array or reads an element
that no `push` has written.  In the state after the sequence (so after every call of
it) `capacity_` is at least 1 and is the size of the slot array, `pidx_` and `cidx_`
are below it, and a further `pop` or `steal` is defined and, when the buffer is not
empty, reads a written element at `cidx_`.  On every well-formed state the two copies
of `resize_` read `capacity_ - cidx_` elements from `cidx_` and `pidx_` elements from
0 of the old array and write them at 0 and at `offset = capacity_ - cidx_` of the new
array of `2 * capacity_` elements, with `offset + pidx_ ≤ 2 * capacity_`, so
`resize_` is defined and its result is well formed. -/
theorem index_safety :
    (∀ (capacity : Nat) (ops : List queue_op), 1 ≤ capacity →
      ∃ (rs : List context_ptr) (q : context_queue),
        (context_queue.init capacity).run ops = some (rs, q) ∧
        1 ≤ q.capacity_ ∧ q.slots_.length = q.capacity_ ∧
        q.pidx_ < q.capacity_ ∧ q.cidx_ < q.capacity_ ∧
        ∃ r q', q.pop = some (r, q') ∧
          (q.empty = false → load q.slots_ q.cidx_ = some r)) ∧
    (∀ (pinned : context → Bool) (capacity : Nat) (ops : List deque_op), 1 ≤ capacity →
      ∃ (evs : List deque_event) (b : circular_buffer),
        (circular_buffer.init capacity).run pinned ops = some (evs, b) ∧
        1 ≤ b.capacity_ ∧ b.slots_.length = b.capacity_ ∧
        b.pidx_ < b.capacity_ ∧ b.cidx_ < b.capacity_ ∧
        (∃ r b', b.pop = some (r, b') ∧
          (b.empty = false → load b.slots_ b.cidx_ = some r)) ∧
        (∃ r b', b.steal pinned = some (r, b') ∧
          (b.empty = false → ∃ c, load b.slots_ b.cidx_ = some (some c)))) ∧
    (∀ q : context_queue, q.wf →
      q.cidx_ + (q.capacity_ - q.cidx_) ≤ q.slots_.length ∧
      0 + (q.capacity_ - q.cidx_) ≤ 2 * q.capacity_ ∧
      0 + q.pidx_ ≤ q.slots_.length ∧
      (q.capacity_ - q.cidx_) + q.pidx_ ≤ 2 * q.capacity_ ∧
      ∃ q', q.resize_ = some q' ∧ q'.wf ∧ q'.capacity_ = 2 * q.capacity_) ∧
    (∀ b : circular_buffer, b.wf →
      b.cidx_ + (b.capacity_ - b.cidx_) ≤ b.slots_.length ∧
      0 + (b.capacity_ - b.cidx_) ≤ 2 * b.capacity_ ∧
      0 + b.pidx_ ≤ b.slots_.length ∧
      (b.capacity_ - b.cidx_) + b.pidx_ ≤ 2 * b.capacity_ ∧
      ∃ b', b.resize_ = some b' ∧ b'.wf ∧ b'.capacity_ = 2 * b.capacity_) := by
  refine ⟨?_, ?_, context_queue.resize_defined, circular_buffer.buffer_resize_defined⟩
  · intro capacity ops hcap
    obtain ⟨q, h1, h2⟩ := context_queue.run_spec ops (context_queue.init capacity) []
      (context_queue.init_holds capacity hcap)
    obtain ⟨hn, hlen, hp, hc⟩ := h2.1
    exact ⟨_, q, h1, hn, hlen, hp, hc, q.pop_reads_written _ h2⟩
  · intro pinned capacity ops hcap
    obtain ⟨b, h1, h2⟩ := circular_buffer.buffer_run_spec pinned ops
      (circular_buffer.init capacity) [] (circular_buffer.buffer_init_holds capacity hcap)
    obtain ⟨hn, hlen, hp, hc⟩ := h2.1
    exact ⟨_, b, h1, hn, hlen, hp, hc, b.buffer_pop_reads_written _ h2,
      b.steal_reads_written pinned _ h2⟩

theorem index_safety_witness :
    (∃ (evs : List deque_event) (b : circular_buffer),
      (circular_buffer.init 1).run (fun c => c == 2)
        [deque_op.push 1, deque_op.push 2, deque_op.steal, deque_op.push 3, deque_op.steal,
         deque_op.pop, deque_op.push 4] = some (evs, b) ∧
      1 ≤ b.capacity_ ∧ b.slots_.length = b.capacity_ ∧
      b.pidx_ < b.capacity_ ∧ b.cidx_ < b.capacity_ ∧
      (∃ r b', b.pop = some (r, b') ∧
        (b.empty = false → load b.slots_ b.cidx_ = some r)) ∧
      (∃ r b', b.steal (fun c => c == 2) = some (r, b') ∧
        (b.empty = false → ∃ c, load b.slots_ b.cidx_ = some (some c)))) ∧
    (∃ q', context_queue.resize_
        { pidx_ := 1, cidx_ := 2, capacity_ := 4,
          slots_ := [slot.value (some 5), slot.indeterminate, slot.value (some 3),
                     slot.value (some 4)] } = some q' ∧ q'.wf ∧ q'.capacity_ = 2 * 4) :=
  ⟨index_safety.2.1 (fun c => c == 2) 1 _ (by decide),
   (index_safety.2.2.1
      { pidx_ := 1, cidx_ := 2, capacity_ := 4,
        slots_ := [slot.value (some 5), slot.indeterminate, slot.value (some 3),
                   slot.value (some 4)] } (by decide)).2.2.2.2⟩

/-! ## The two ring buffer classes are the same queue -/

theorem context_queue.run_ops_defined (ops : List ring_op) :
    ∀ (q : context_queue) (l : List context_ptr), q.holds l →
      ∃ rs q' l', q.run_ops ops = some (rs, q') ∧ q'.holds l' := by
  induction ops with
  | nil => intro q l h; exact ⟨[], q, l, rfl, h⟩
  | cons op ops ih =>
    intro q l h
    cases op with
    | push c =>
      obtain ⟨q1, h1, h2⟩ := q.push_holds l c h
      obtain ⟨rs, q', l', h3, h4⟩ := ih q1 _ h2
      exact ⟨ring_result.pushed :: rs, q', l', by simp [context_queue.run_ops, h1, h3], h4⟩
    | pop =>
      cases l with
      | nil =>
        obtain ⟨rs, q', l', h3, h4⟩ := ih q [] h
        exact ⟨ring_result.popped none :: rs, q', l',
          by simp [context_queue.run_ops, q.pop_holds_nil h, h3], h4⟩
      | cons x l =>
        obtain ⟨q1, h1, h2, -⟩ := q.pop_holds_cons x l h
        obtain ⟨rs, q', l', h3, h4⟩ := ih q1 l h2
        exact ⟨ring_result.popped x :: rs, q', l',
          by simp [context_queue.run_ops, h1, h3], h4⟩
    | empty =>
      obtain ⟨rs, q', l', h3, h4⟩ := ih q l h
      exact ⟨ring_result.emptiness q.empty :: rs, q', l',
        by simp [context_queue.run_ops, h3], h4⟩

theorem circular_buffer.run_ops_to_queue (ops : List ring_op) :
    ∀ b : circular_buffer,
      (b.run_ops ops).map (fun r => (r.1, r.2.to_queue)) = b.to_queue.run_ops ops := by
  induction ops with
  | nil => intro b; rfl
  | cons op ops ih =>
    intro b
    cases op with
    | push c =>
      have hp := b.push_to_queue c
      simp only [circular_buffer.run_ops, context_queue.run_ops, Option.bind_eq_bind]
      rw [← hp]
      cases hb : b.push c with
      | none => rfl
      | some b1 =>
        simp only [Option.some_bind, Option.map_some']
        rw [← ih b1]
        cases circular_buffer.run_ops ops b1 with
        | none => rfl
        | some r => rfl
    | pop =>
      have hp := b.pop_to_queue
      simp only [circular_buffer.run_ops, context_queue.run_ops, Option.bind_eq_bind]
      rw [← hp]
      cases hb : b.pop with
      | none => rfl
      | some r1 =>
        obtain ⟨x, b1⟩ := r1
        simp only [Option.some_bind, Option.map_some']
        rw [← ih b1]
        cases circular_buffer.run_ops ops b1 with
        | none => rfl
        | some r => rfl
    | empty =>
      simp only [circular_buffer.run_ops, context_queue.run_ops, Option.bind_eq_bind]
      rw [← ih b]
      cases circular_buffer.run_ops ops b with
      | none => rfl
      | some r => rfl

/-- Claim C17.  `context_queue` and `work_stealing::circular_buffer` are the same queue
abstraction.  For every initial capacity and every sequence of `push`, `pop` and
`empty` calls the two classes behave alike call by call; for capacity at least 1 both
runs are defined, return identical results at every call and end with identical
`pidx_`, `cidx_`, `capacity_`, slots and live contents. -/
theorem queue_and_deque_buffer_agree :
    (∀ (capacity : Nat) (ops : List ring_op),
      ((circular_buffer.init capacity).run_ops ops).map (fun r => (r.1, r.2.to_queue))
        = (context_queue.init capacity).run_ops ops) ∧
    (∀ (capacity : Nat) (ops : List ring_op), 1 ≤ capacity →
      ∃ (rs : List ring_result) (q : context_queue) (b : circular_buffer),
        (context_queue.init capacity).run_ops ops = some (rs, q) ∧
        (circular_buffer.init capacity).run_ops ops = some (rs, b) ∧
        b.pidx_ = q.pidx_ ∧ b.cidx_ = q.cidx_ ∧ b.capacity_ = q.capacity_ ∧
        b.slots_ = q.slots_ ∧ b.live = q.live) := by
  have hall : ∀ (capacity : Nat) (ops : List ring_op),
      ((circular_buffer.init capacity).run_ops ops).map (fun r => (r.1, r.2.to_queue))
        = (context_queue.init capacity).run_ops ops :=
    fun capacity ops => circular_buffer.run_ops_to_queue ops (circular_buffer.init capacity)
  refine ⟨hall, ?_⟩
  intro capacity ops hcap
  obtain ⟨rs, q, l, h1, -⟩ := context_queue.run_ops_defined ops (context_queue.init capacity) []
    (context_queue.init_holds capacity hcap)
  have h2 := hall capacity ops
  rw [h1] at h2
  cases hb : (circular_buffer.init capacity).run_ops ops with
  | none => rw [hb] at h2; simp at h2
  | some r =>
    obtain ⟨rs', b⟩ := r
    rw [hb] at h2
    simp only [Option.map_some', Option.some.injEq, Prod.mk.injEq] at h2
    obtain ⟨hrs, hq⟩ := h2
    subst hrs hq
    exact ⟨rs', b.to_queue, b, h1, rfl, rfl, rfl, rfl, rfl, rfl⟩

theorem queue_and_deque_buffer_agree_witness :
    ∃ (rs : List ring_result) (q : context_queue) (b : circular_buffer),
      (context_queue.init 2).run_ops
        [ring_op.empty, ring_op.push (some 1), ring_op.push none, ring_op.empty, ring_op.pop,
         ring_op.push (some 3), ring_op.pop, ring_op.pop, ring_op.pop] = some (rs, q) ∧
      (circular_buffer.init 2).run_ops
        [ring_op.empty, ring_op.push (some 1), ring_op.push none, ring_op.empty, ring_op.pop,
         ring_op.push (some 3), ring_op.pop, ring_op.pop, ring_op.pop] = some (rs, b) ∧
      b.pidx_ = q.pidx_ ∧ b.cidx_ = q.cidx_ ∧ b.capacity_ = q.capacity_ ∧
      b.slots_ = q.slots_ ∧ b.live = q.live :=
  queue_and_deque_buffer_agree.2 2 _ (by decide)

/-! ## Call sequences on the mutex -/

/-- On a well-formed wait queue every call is defined and does to `owner_` and to the
waiters what the mutex of the specification does. -/
theorem mutex.step_refines (m : mutex) (ws : List context) (k : mutex_call)
    (h : m.wait_queue_.holds (ws.map some)) :
    ∃ m', m.step k = some m' ∧
      m'.owner_ = (mutex_ref_step k (m.owner_, ws)).1 ∧
      m'.wait_queue_.holds ((mutex_ref_step k (m.owner_, ws)).2.map some) := by
  cases k with
  | lock c =>
    by_cases h1 : m.owner_ = some c
    · refine ⟨m, ?_, ?_, ?_⟩
      · simp [mutex.step, mutex.lock_of_owner c m h1]
      · simp [mutex_ref_step, h1]
      · simpa [mutex_ref_step, h1] using h
    · cases h2 : m.owner_ with
      | none =>
        refine ⟨{ m with owner_ := some c }, ?_, ?_, ?_⟩
        · simp [mutex.step, mutex.lock_of_unlocked c m h2]
        · simp [mutex_ref_step]
        · simpa [mutex_ref_step] using h
      | some a =>
        have hne : c ≠ a := by
          intro e; apply h1; rw [h2, e]
        have hne' : a ≠ c := fun e => hne e.symm
        obtain ⟨wq, e1, e2⟩ := mutex.lock_enqueues a c ws m h2 hne h
        refine ⟨{ owner_ := some a, wait_queue_ := wq }, ?_, ?_, ?_⟩
        · simp [mutex.step, e1]
        · simp [mutex_ref_step, hne']
        · simpa [mutex_ref_step, hne'] using e2
  | try_lock c =>
    by_cases h1 : m.owner_ = some c
    · refine ⟨m, ?_, ?_, ?_⟩
      · simp [mutex.step, mutex.try_lock, h1]
      · simp [mutex_ref_step, h1]
      · simpa [mutex_ref_step, h1] using h
    · rw [mutex.step, mutex.try_lock_of_other some c m h1]
      cases h2 : m.owner_ with
      | none =>
        refine ⟨{ m with owner_ := some c }, ?_, ?_, ?_⟩
        · simp
        · simp [mutex_ref_step]
        · simpa [mutex_ref_step] using h
      | some a =>
        refine ⟨m, ?_, ?_, ?_⟩
        · simp
        · simp [mutex_ref_step, h2]
        · simpa [mutex_ref_step] using h
  | unlock c =>
    by_cases h1 : m.owner_ = some c
    · cases ws with
      | nil =>
        refine ⟨{ owner_ := none, wait_queue_ := m.wait_queue_ }, ?_, ?_, ?_⟩
        · simp [mutex.step, mutex.unlock_release c m h1 h]
        · simp [mutex_ref_step, h1]
        · simpa [mutex_ref_step, h1] using h
      | cons w rest =>
        obtain ⟨wq, e1, e2, -⟩ := mutex.unlock_handoff c w rest m h1 h
        refine ⟨{ owner_ := some w, wait_queue_ := wq }, ?_, ?_, ?_⟩
        · simp [mutex.step, e1]
        · simp [mutex_ref_step, h1]
        · simpa [mutex_ref_step, h1] using e2
    · refine ⟨m, ?_, ?_, ?_⟩
      · simp [mutex.step, mutex.unlock_of_other c m h1]
      · simp [mutex_ref_step, h1]
      · simpa [mutex_ref_step, h1] using h

/-- The invariant of the mutex of the specification is kept by every call of a unit
that is not among the waiters. -/
theorem mutex_ref_step_invariant (k : mutex_call) (o : context_ptr) (ws : List context)
    (hcaller : k.caller ∉ ws) (h0 : o = none → ws = [])
    (h1 : ∀ a, o = some a → a ∉ ws) (h2 : ws.Nodup) :
    ((mutex_ref_step k (o, ws)).1 = none → (mutex_ref_step k (o, ws)).2 = []) ∧
    (∀ a, (mutex_ref_step k (o, ws)).1 = some a → a ∉ (mutex_ref_step k (o, ws)).2) ∧
    (mutex_ref_step k (o, ws)).2.Nodup := by
  cases k with
  | lock c =>
    simp only [mutex_call.caller] at hcaller
    by_cases e1 : o = some c
    · have e : mutex_ref_step (mutex_call.lock c) (o, ws) = (o, ws) := by
        simp [mutex_ref_step, e1]
      rw [e]
      exact ⟨h0, h1, h2⟩
    · cases o with
      | none =>
        have e : mutex_ref_step (mutex_call.lock c) (none, ws) = (some c, ws) := by
          simp [mutex_ref_step]
        rw [e]
        refine ⟨(fun x => by cases x), ?_, h2⟩
        intro a _
        rw [h0 rfl]
        exact List.not_mem_nil a
      | some b =>
        have hbc : b ≠ c := fun x => e1 (by rw [x])
        have e : mutex_ref_step (mutex_call.lock c) (some b, ws) = (some b, ws ++ [c]) := by
          simp [mutex_ref_step, hbc]
        rw [e]
        refine ⟨(fun x => by cases x), ?_, ?_⟩
        · intro a ha
          have hab : b = a := Option.some.inj ha
          subst hab
          simp only [List.mem_append, List.mem_singleton, not_or]
          exact ⟨h1 b rfl, hbc⟩
        · show (ws ++ [c]).Nodup
          rw [List.nodup_append]
          refine ⟨h2, List.nodup_singleton c, ?_⟩
          intro x hx hx'
          simp only [List.mem_singleton] at hx'
          subst hx'
          exact hcaller hx
  | try_lock c =>
    cases o with
    | none =>
      have e : mutex_ref_step (mutex_call.try_lock c) (none, ws) = (some c, ws) := by
        simp [mutex_ref_step]
      rw [e]
      refine ⟨(fun x => by cases x), ?_, h2⟩
      intro a _
      rw [h0 rfl]
      exact List.not_mem_nil a
    | some b =>
      have e : mutex_ref_step (mutex_call.try_lock c) (some b, ws) = (some b, ws) := by
        simp [mutex_ref_step]
      rw [e]
      exact ⟨h0, h1, h2⟩
  | unlock c =>
    by_cases e1 : o = some c
    · cases ws with
      | nil =>
        have e : mutex_ref_step (mutex_call.unlock c) (o, []) = (none, []) := by
          simp [mutex_ref_step, e1]
        rw [e]
        exact ⟨fun _ => rfl, (fun a ha => by cases ha), List.nodup_nil⟩
      | cons w rest =>
        have e : mutex_ref_step (mutex_call.unlock c) (o, w :: rest) = (some w, rest) := by
          simp [mutex_ref_step, e1]
        rw [e]
        rw [List.nodup_cons] at h2
        refine ⟨(fun x => by cases x), ?_, h2.2⟩
        intro a ha
        have hwa : w = a := Option.some.inj ha
        subst hwa
        exact h2.1
    · have e : mutex_ref_step (mutex_call.unlock c) (o, ws) = (o, ws) := by
        simp [mutex_ref_step, e1]
      rw [e]
      exact ⟨h0, h1, h2⟩

/-- The waiters of a well-formed wait queue are determined by its live sequence. -/
theorem context_queue.mem_of_holds (q : context_queue) (ws : List context) (c : context)
    (h : q.holds (ws.map some)) : slot.value (some c) ∈ q.live ↔ c ∈ ws := by
  rw [h.2]
  simp

/-- Claim C19.  Mutex state invariant.  In every state reachable from a fresh mutex
with a wait queue of capacity at least 1 through `lock`, `try_lock` and `unlock`
calls, failing or not, made by units that are not suspended in the wait queue, the
wait queue is well formed and holds handles `ws` such that: no handle is null, `ws` is
empty (and `empty()` is true) when the owner is null, the owner is not in `ws`, and no
unit is in `ws` twice.  Every further call is defined in such a state. -/
theorem mutex_state_invariant (capacity : Nat) (hcap : 1 ≤ capacity) (m : mutex)
    (hreach : mutex.reachable capacity m) :
    ∃ ws : List context,
      m.wait_queue_.holds (ws.map some) ∧
      (m.owner_ = none → ws = [] ∧ m.wait_queue_.empty = true) ∧
      (∀ a, m.owner_ = some a → a ∉ ws ∧ slot.value (some a) ∉ m.wait_queue_.live) ∧
      ws.Nodup ∧ m.wait_queue_.live.Nodup ∧
      slot.value none ∉ m.wait_queue_.live ∧ slot.indeterminate ∉ m.wait_queue_.live ∧
      (∀ k, ∃ m', m.step k = some m') := by
  have key : ∃ ws : List context, m.wait_queue_.holds (ws.map some) ∧
      (m.owner_ = none → ws = []) ∧ (∀ a, m.owner_ = some a → a ∉ ws) ∧ ws.Nodup := by
    induction hreach with
    | init =>
      exact ⟨[], context_queue.init_holds capacity hcap, fun _ => rfl,
        fun a _ => by simp, List.nodup_nil⟩
    | step m m' k _ hrun hstep ih =>
      obtain ⟨ws, hq, h0, h1, h2⟩ := ih
      have hcaller : k.caller ∉ ws := fun hc =>
        hrun ((m.wait_queue_.mem_of_holds ws k.caller hq).mpr hc)
      obtain ⟨m2, e1, e2, e3⟩ := m.step_refines ws k hq
      rw [hstep] at e1
      simp only [Option.some.injEq] at e1
      subst e1
      obtain ⟨i0, i1, i2⟩ := mutex_ref_step_invariant k m.owner_ ws hcaller h0 h1 h2
      refine ⟨_, e3, ?_, ?_, i2⟩
      · intro e; exact i0 (by rw [← e2]; exact e)
      · intro a e; exact i1 a (by rw [← e2]; exact e)
  obtain ⟨ws, hq, h0, h1, h2⟩ := key
  refine ⟨ws, hq, ?_, ?_, h2, ?_, ?_, ?_, ?_⟩
  · intro e
    have hnil := h0 e
    refine ⟨hnil, ?_⟩
    rw [hnil] at hq
    exact m.wait_queue_.empty_of_holds_nil hq
  · intro a e
    exact ⟨h1 a e, fun hm => h1 a e ((m.wait_queue_.mem_of_holds ws a hq).mp hm)⟩
  · rw [hq.2, List.map_map]
    refine List.Nodup.map ?_ h2
    intro x y hxy
    simpa using hxy
  · rw [hq.2]; simp
  · rw [hq.2]; simp
  · intro k
    obtain ⟨m', e1, -⟩ := m.step_refines ws k hq
    exact ⟨m', e1⟩

theorem mutex_state_invariant_witness :
    (1 ≤ 2 ∧ mutex.reachable 2
      { owner_ := some 1,
        wait_queue_ := { pidx_ := 1, cidx_ := 0, capacity_ := 2,
                         slots_ := [slot.value (some 2), slot.indeterminate] } }) ∧
    ∃ ws : List context,
      context_queue.holds { pidx_ := 1, cidx_ := 0, capacity_ := 2,
                            slots_ := [slot.value (some 2), slot.indeterminate] }
        (ws.map some) ∧
      ((some 1 : context_ptr) = none → ws = [] ∧
        context_queue.empty { pidx_ := 1, cidx_ := 0, capacity_ := 2,
                              slots_ := [slot.value (some 2), slot.indeterminate] } = true) ∧
      (∀ a, (some 1 : context_ptr) = some a → a ∉ ws ∧
        slot.value (some a) ∉
          context_queue.live { pidx_ := 1, cidx_ := 0, capacity_ := 2,
                               slots_ := [slot.value (some 2), slot.indeterminate] }) ∧
      ws.Nodup ∧
      (context_queue.live { pidx_ := 1, cidx_ := 0, capacity_ := 2,
                            slots_ := [slot.value (some 2), slot.indeterminate] }).Nodup ∧
      slot.value none ∉
        context_queue.live { pidx_ := 1, cidx_ := 0, capacity_ := 2,
                             slots_ := [slot.value (some 2), slot.indeterminate] } ∧
      slot.indeterminate ∉
        context_queue.live { pidx_ := 1, cidx_ := 0, capacity_ := 2,
                             slots_ := [slot.value (some 2), slot.indeterminate] } ∧
      (∀ k, ∃ m',
        mutex.step
          { owner_ := some 1,
            wait_queue_ := { pidx_ := 1, cidx_ := 0, capacity_ := 2,
                             slots_ := [slot.value (some 2), slot.indeterminate] } } k
          = some m') :=
  ⟨⟨by decide,
    mutex.reachable.step { owner_ := some 1, wait_queue_ := context_queue.init 2 } _
      (mutex_call.lock 2)
      (mutex.reachable.step (mutex.init 2) _ (mutex_call.lock 1) mutex.reachable.init
        (by decide) rfl)
      (by decide) rfl⟩,
   mutex_state_invariant 2 (by decide) _
    (mutex.reachable.step { owner_ := some 1, wait_queue_ := context_queue.init 2 } _
      (mutex_call.lock 2)
      (mutex.reachable.step (mutex.init 2) _ (mutex_call.lock 1) mutex.reachable.init
        (by decide) rfl)
      (by decide) rfl)⟩

/-! ## What other units can do during the yield of `try_lock` -/

/-- Whatever the wait queue is, a defined call by a unit other than the owner leaves
the owner in place. -/
theorem mutex.step_keeps_owner (m m' : mutex) (a : context) (k : mutex_call)
    (ho : m.owner_ = some a) (hk : k.caller ≠ a) (h : m.step k = some m') :
    m'.owner_ = some a := by
  cases k with
  | lock c =>
    simp only [mutex_call.caller] at hk
    rw [mutex.step, mutex.lock_of_other a c m ho hk] at h
    cases hp : m.wait_queue_.push (some c) with
    | none => rw [hp] at h; simp at h
    | some wq =>
      rw [hp] at h
      simp only [Option.some_bind, Option.map_some', Option.some.injEq] at h
      rw [← h]
      exact ho
  | try_lock c =>
    simp only [mutex_call.caller] at hk
    have hoc : m.owner_ ≠ some c := by
      rw [ho]; intro e; exact hk (Option.some.inj e).symm
    have hnn : ¬ (none = m.owner_) := by rw [ho]; intro e; cases e
    rw [mutex.step, mutex.try_lock_of_other some c m hoc, if_neg hnn] at h
    simp only [Option.some_bind, Option.map_some', Option.some.injEq] at h
    rw [← h]
    exact ho
  | unlock c =>
    simp only [mutex_call.caller] at hk
    have hoc : m.owner_ ≠ some c := by
      rw [ho]; intro e; exact hk (Option.some.inj e).symm
    rw [mutex.step, mutex.unlock_of_other c m hoc] at h
    simp only [Option.map_some', Option.some.injEq] at h
    rw [← h]
    exact ho

theorem mutex.run_calls_keeps_owner (a : context) (calls : List mutex_call) :
    ∀ m m' : mutex, m.owner_ = some a → (∀ k ∈ calls, k.caller ≠ a) →
      m.run_calls calls = some m' → m'.owner_ = some a := by
  induction calls with
  | nil =>
    intro m m' ho _ h
    simp only [mutex.run_calls, Option.some.injEq] at h
    rw [← h]; exact ho
  | cons k ks ih =>
    intro m m' ho hk h
    simp only [mutex.run_calls] at h
    cases hs : m.step k with
    | none => rw [hs] at h; simp at h
    | some m1 =>
      rw [hs] at h
      simp only [Option.some_bind] at h
      exact ih m1 m' (m.step_keeps_owner m1 a k ho (hk k (List.mem_cons_self k ks)) hs)
        (fun k' hk' => hk k' (List.mem_cons_of_mem k hk')) h

/-- On a well-formed wait queue every call sequence is defined and follows the mutex of
the specification. -/
theorem mutex.run_calls_refines (calls : List mutex_call) :
    ∀ (m : mutex) (ws : List context), m.wait_queue_.holds (ws.map some) →
      ∃ m', m.run_calls calls = some m' ∧
        m'.owner_ = (calls.foldl (fun s k => mutex_ref_step k s) (m.owner_, ws)).1 ∧
        m'.wait_queue_.holds
          ((calls.foldl (fun s k => mutex_ref_step k s) (m.owner_, ws)).2.map some) := by
  induction calls with
  | nil => intro m ws h; exact ⟨m, rfl, rfl, h⟩
  | cons k ks ih =>
    intro m ws h
    obtain ⟨m1, e1, e2, e3⟩ := m.step_refines ws k h
    obtain ⟨m', f1, f2, f3⟩ := ih m1 _ e3
    refine ⟨m', ?_, ?_, ?_⟩
    · simp only [mutex.run_calls, e1, Option.some_bind]
      exact f1
    · rw [f2, e2]; rfl
    · rw [e2] at f3; exact f3

/-- A unit that neither owns the mutex of the specification nor waits for it is in the
same position after a call by another unit. -/
theorem mutex_ref_step_other (k : mutex_call) (o : context_ptr) (ws : List context)
    (a : context) (hk : k.caller ≠ a) (ho : o ≠ some a) (ha : a ∉ ws) :
    (mutex_ref_step k (o, ws)).1 ≠ some a ∧ a ∉ (mutex_ref_step k (o, ws)).2 := by
  cases k with
  | lock c =>
    simp only [mutex_call.caller] at hk
    by_cases e1 : o = some c
    · have e : mutex_ref_step (mutex_call.lock c) (o, ws) = (o, ws) := by
        simp [mutex_ref_step, e1]
      rw [e]; exact ⟨ho, ha⟩
    · cases o with
      | none =>
        have e : mutex_ref_step (mutex_call.lock c) (none, ws) = (some c, ws) := by
          simp [mutex_ref_step]
        rw [e]
        exact ⟨(fun x => hk (Option.some.inj x)), ha⟩
      | some b =>
        have hbc : b ≠ c := fun x => e1 (by rw [x])
        have e : mutex_ref_step (mutex_call.lock c) (some b, ws) = (some b, ws ++ [c]) := by
          simp [mutex_ref_step, hbc]
        rw [e]
        refine ⟨ho, ?_⟩
        simp only [List.mem_append, List.mem_singleton, not_or]
        exact ⟨ha, fun x => hk x.symm⟩
  | try_lock c =>
    simp only [mutex_call.caller] at hk
    cases o with
    | none =>
      have e : mutex_ref_step (mutex_call.try_lock c) (none, ws) = (some c, ws) := by
        simp [mutex_ref_step]
      rw [e]
      exact ⟨(fun x => hk (Option.some.inj x)), ha⟩
    | some b =>
      have e : mutex_ref_step (mutex_call.try_lock c) (some b, ws) = (some b, ws) := by
        simp [mutex_ref_step]
      rw [e]; exact ⟨ho, ha⟩
  | unlock c =>
    by_cases e1 : o = some c
    · cases ws with
      | nil =>
        have e : mutex_ref_step (mutex_call.unlock c) (o, []) = (none, []) := by
          simp [mutex_ref_step, e1]
        rw [e]
        exact ⟨(fun x => by cases x), ha⟩
      | cons w rest =>
        have e : mutex_ref_step (mutex_call.unlock c) (o, w :: rest) = (some w, rest) := by
          simp [mutex_ref_step, e1]
        rw [e]
        simp only [List.mem_cons, not_or] at ha
        exact ⟨(fun x => ha.1 (Option.some.inj x).symm), ha.2⟩
    · have e : mutex_ref_step (mutex_call.unlock c) (o, ws) = (o, ws) := by
        simp [mutex_ref_step, e1]
      rw [e]; exact ⟨ho, ha⟩

theorem mutex_ref_run_other (a : context) (calls : List mutex_call) :
    ∀ (o : context_ptr) (ws : List context), (∀ k ∈ calls, k.caller ≠ a) → o ≠ some a →
      a ∉ ws →
      (calls.foldl (fun s k => mutex_ref_step k s) (o, ws)).1 ≠ some a := by
  induction calls with
  | nil => intro o ws _ ho _; exact ho
  | cons k ks ih =>
    intro o ws hk ho ha
    obtain ⟨h1, h2⟩ := mutex_ref_step_other k o ws a (hk k (List.mem_cons_self k ks)) ho ha
    exact ih _ _ (fun k' hk' => hk k' (List.mem_cons_of_mem k hk')) h1 h2

/-- A `try_lock` on an unlocked mutex during whose yield only other units make calls:
whatever the wait queue is, a defined execution ends with the caller as owner and
returns `true`. -/
theorem mutex.try_lock_unlocked_result (m : mutex) (a : context) (calls : List mutex_call)
    (ho : m.owner_ = none) (hothers : ∀ k ∈ calls, k.caller ≠ a) (o : outcome Bool)
    (h : m.try_lock (mutex.run_calls calls) a = some o) :
    o.result = completion.returned true ∧ o.state.owner_ = some a ∧
      o.calls = [call.yield a] := by
  have hne : m.owner_ ≠ some a := by rw [ho]; intro e; cases e
  rw [mutex.try_lock_of_other _ a m hne, if_pos ho.symm] at h
  cases hr : mutex.run_calls calls { m with owner_ := some a } with
  | none => rw [hr] at h; simp at h
  | some m2 =>
    rw [hr] at h
    simp only [Option.some_bind, Option.some.injEq] at h
    have hown := mutex.run_calls_keeps_owner a calls _ m2 rfl hothers hr
    subst h
    refine ⟨?_, hown, rfl⟩
    simp [hown]

/-- Claim C12, refuted.  There is no execution in which a unit calls `try_lock` on an unlocked
mutex, only other units make `lock`/`try_lock`/`unlock` calls during the yield, and the
call returns `false`. -/
theorem try_lock_spurious_failure_refuted :
    ¬ ∃ (m : mutex) (a : context) (calls : List mutex_call) (o : outcome Bool),
      m.owner_ = none ∧ (∀ k ∈ calls, k.caller ≠ a) ∧
      m.try_lock (mutex.run_calls calls) a = some o ∧
      o.result = completion.returned false := by
  rintro ⟨m, a, calls, o, ho, hothers, h, hfalse⟩
  have h1 := (mutex.try_lock_unlocked_result m a calls ho hothers o h).1
  rw [h1] at hfalse
  cases hfalse

/-- Claim C12, amended.  A unit that calls `try_lock` on an unlocked mutex acquires
ownership, and in every execution in which only other units make
`lock`/`try_lock`/`unlock` calls on the mutex during the yield the call yields once
and returns `true` with the caller still the owner: those calls cannot take the
ownership away.  On a well-formed wait queue the execution is defined.  Whatever
happens during the yield, `try_lock` returns `false` exactly when `owner_` differs from
the caller after the yield. -/
theorem try_lock_on_unlocked_reports_success (m : mutex) (a : context)
    (calls : List mutex_call) (ho : m.owner_ = none)
    (hothers : ∀ k ∈ calls, k.caller ≠ a) :
    (∀ o, m.try_lock (mutex.run_calls calls) a = some o →
      o.result = completion.returned true ∧ o.state.owner_ = some a ∧
      o.calls = [call.yield a]) ∧
    (∀ ws : List context, m.wait_queue_.holds (ws.map some) →
      ∃ o, m.try_lock (mutex.run_calls calls) a = some o ∧
        o.result = completion.returned true) ∧
    (∀ (yield_ : mutex → Option mutex) (o : outcome Bool), m.try_lock yield_ a = some o →
      (o.result = completion.returned false ↔ o.state.owner_ ≠ some a)) := by
  have hne : m.owner_ ≠ some a := by rw [ho]; intro e; cases e
  refine ⟨fun o h => mutex.try_lock_unlocked_result m a calls ho hothers o h, ?_, ?_⟩
  · intro ws hq
    have hq1 : ({ m with owner_ := some a } : mutex).wait_queue_.holds (ws.map some) := hq
    obtain ⟨m2, e1, -, -⟩ := mutex.run_calls_refines calls { m with owner_ := some a } ws hq1
    have hex : ∃ o, m.try_lock (mutex.run_calls calls) a = some o := by
      rw [mutex.try_lock_of_other _ a m hne, if_pos ho.symm, e1]
      exact ⟨_, rfl⟩
    obtain ⟨o, h⟩ := hex
    exact ⟨o, h, (mutex.try_lock_unlocked_result m a calls ho hothers o h).1⟩
  · intro yield_ o h
    rw [mutex.try_lock_of_other yield_ a m hne] at h
    cases hy : yield_ (if none = m.owner_ then { m with owner_ := some a } else m) with
    | none => rw [hy] at h; simp at h
    | some m2 =>
      rw [hy] at h
      simp only [Option.some_bind, Option.some.injEq] at h
      subst h
      by_cases e : m2.owner_ = some a
      · simp [e]
      · have e' : ¬ (some a = m2.owner_) := fun x => e x.symm
        simp [e, e']

theorem try_lock_on_unlocked_reports_success_witness :
    ((mutex.init 2).owner_ = none ∧
      ∀ k ∈ [mutex_call.lock 2, mutex_call.try_lock 3, mutex_call.unlock 2,
             mutex_call.unlock 3], k.caller ≠ 1) ∧
    ∃ o, (mutex.init 2).try_lock
        (mutex.run_calls [mutex_call.lock 2, mutex_call.try_lock 3, mutex_call.unlock 2,
                          mutex_call.unlock 3]) 1 = some o ∧
      o.result = completion.returned true :=
  ⟨⟨rfl, by decide⟩,
   (try_lock_on_unlocked_reports_success (mutex.init 2) 1
      [mutex_call.lock 2, mutex_call.try_lock 3, mutex_call.unlock 2, mutex_call.unlock 3]
      rfl (by decide)).2.1 [] (by decide)⟩

/-- Claim C20.  Let the running unit `a` (not in the wait queue) call `try_lock` on a mutex
it does not own, and let other units make any sequence of `lock`/`try_lock`/`unlock`
calls during the yield.  The call is defined, yields once, and returns `true` if and
only if the mutex had no owner when `a` entered: an acquisition made at entry is still
in place after the yield, and when the mutex was owned at entry `a` is not the owner
after the yield, also when the owner released the mutex meanwhile. -/
theorem try_lock_result_fixed_at_entry (m : mutex) (a : context) (ws : List context)
    (calls : List mutex_call) (hq : m.wait_queue_.holds (ws.map some)) (hrunning : a ∉ ws)
    (ho : m.owner_ ≠ some a) (hothers : ∀ k ∈ calls, k.caller ≠ a) :
    ∃ o, m.try_lock (mutex.run_calls calls) a = some o ∧
      o.calls = [call.yield a] ∧
      (o.result = completion.returned true ↔ m.owner_ = none) ∧
      (o.result = completion.returned false ↔ m.owner_ ≠ none) ∧
      (m.owner_ = none → o.state.owner_ = some a) ∧
      (m.owner_ ≠ none → o.state.owner_ ≠ some a) := by
  rw [mutex.try_lock_of_other _ a m ho]
  by_cases h0 : m.owner_ = none
  · rw [if_pos h0.symm]
    have hq1 : ({ m with owner_ := some a } : mutex).wait_queue_.holds (ws.map some) := hq
    obtain ⟨m2, e1, -, -⟩ := mutex.run_calls_refines calls { m with owner_ := some a } ws hq1
    have hown := mutex.run_calls_keeps_owner a calls _ m2 rfl hothers e1
    rw [e1]
    refine ⟨_, rfl, rfl, ?_, ?_, fun _ => hown, fun h => absurd h0 h⟩
    · simp [hown, h0]
    · simp [hown, h0]
  · rw [if_neg (fun e => h0 e.symm)]
    obtain ⟨m2, e1, e2, -⟩ := mutex.run_calls_refines calls m ws hq
    have hown : m2.owner_ ≠ some a := by
      rw [e2]
      exact mutex_ref_run_other a calls m.owner_ ws hothers ho hrunning
    have hown' : ¬ (some a = m2.owner_) := fun x => hown x.symm
    rw [e1]
    refine ⟨_, rfl, rfl, ?_, ?_, fun h => absurd h h0, fun _ => hown⟩
    · simp [hown', h0]
    · simp [hown', h0]

theorem try_lock_result_fixed_at_entry_witness :
    (context_queue.holds (context_queue.init 2) (([] : List context).map some) ∧
      1 ∉ ([] : List context) ∧ (some 2 : context_ptr) ≠ some 1 ∧
      ∀ k ∈ [mutex_call.unlock 2, mutex_call.lock 3, mutex_call.unlock 3],
        k.caller ≠ 1) ∧
    ∃ o, mutex.try_lock
        (mutex.run_calls [mutex_call.unlock 2, mutex_call.lock 3, mutex_call.unlock 3]) 1
        { owner_ := some 2, wait_queue_ := context_queue.init 2 } = some o ∧
      o.calls = [call.yield 1] ∧
      (o.result = completion.returned true ↔ (some 2 : context_ptr) = none) ∧
      (o.result = completion.returned false ↔ (some 2 : context_ptr) ≠ none) ∧
      ((some 2 : context_ptr) = none → o.state.owner_ = some 1) ∧
      ((some 2 : context_ptr) ≠ none → o.state.owner_ ≠ some 1) :=
  ⟨⟨by decide, by decide, by decide, by decide⟩,
   try_lock_result_fixed_at_entry { owner_ := some 2, wait_queue_ := context_queue.init 2 } 1 []
     [mutex_call.unlock 2, mutex_call.lock 3, mutex_call.unlock 3]
     (by decide) (by decide) (by decide) (by decide)⟩

/-! ## `pick_next` -/

theorem set_of_getElem? {α : Type} (l : List α) (i : Nat) (a : α) (h : l[i]? = some a) :
    l.set i a = l := by
  apply List.ext_getElem?
  intro n
  rw [List.getElem?_set]
  split_ifs with h1 h2
  · subst h1; exact h.symm
  · subst h1
    rw [List.getElem?_eq_none (by omega)] at h
    cases h
  · rfl

theorem work_stealing.mem_peer_order (i n j : Nat) :
    j ∈ work_stealing.peer_order i n ↔ j < n ∧ j ≠ i := by
  simp [work_stealing.peer_order, List.mem_filter, List.mem_rotate, List.mem_range]

/-- When `steal()` of every peer in the list answers null and leaves the peer as it
was, the scan answers null and leaves the roster as it was. -/
theorem work_stealing.steal_from_peers_null (pinned : context → Bool) (js : List Nat) :
    ∀ roster : List work_stealing,
      (∀ j ∈ js, ∃ w, roster[j]? = some w ∧ w.steal pinned = some (none, w)) →
      work_stealing.steal_from_peers pinned js roster = some (none, roster) := by
  induction js with
  | nil => intro roster _; rfl
  | cons j js ih =>
    intro roster h
    obtain ⟨w, hw, hs⟩ := h j (List.mem_cons_self j js)
    simp only [work_stealing.steal_from_peers, hw, Option.bind_eq_bind, Option.some_bind, hs]
    rw [set_of_getElem? roster j w hw]
    exact ih roster (fun k hk => h k (List.mem_cons_of_mem j hk))

/-- When `steal()` of peer `j` answers a handle and `steal()` of every other peer in
the list answers null, the scan answers that handle. -/
theorem work_stealing.steal_from_peers_found (pinned : context → Bool) (j : Nat)
    (c : context) (w w1 : work_stealing) (js : List Nat) :
    ∀ roster : List work_stealing, j ∈ js → roster[j]? = some w →
      w.steal pinned = some (some c, w1) →
      (∀ k ∈ js, k ≠ j → ∃ v, roster[k]? = some v ∧ v.steal pinned = some (none, v)) →
      work_stealing.steal_from_peers pinned js roster = some (some c, roster.set j w1) := by
  induction js with
  | nil => intro roster hj; cases hj
  | cons k js ih =>
    intro roster hj hw hs h
    by_cases hkj : k = j
    · subst hkj
      simp only [work_stealing.steal_from_peers, hw, Option.bind_eq_bind, Option.some_bind, hs]
    · obtain ⟨v, hv, hvs⟩ := h k (List.mem_cons_self k js) hkj
      simp only [work_stealing.steal_from_peers, hv, Option.bind_eq_bind, Option.some_bind,
        hvs]
      rw [set_of_getElem? roster k v hv]
      have hj' : j ∈ js := by
        rcases List.mem_cons.mp hj with e | e
        · exact absurd e.symm hkj
        · exact e
      exact ih roster hj' hw hs (fun k' hk' hne => h k' (List.mem_cons_of_mem k hk') hne)

theorem work_stealing.steal_of_empty (pinned : context → Bool) (w : work_stealing)
    (h : w.rqueue_.holds []) : w.steal pinned = some (none, w) := by
  simp only [work_stealing.steal, w.rqueue_.steal_holds_nil pinned h, Option.bind_eq_bind,
    Option.some_bind]

theorem work_stealing.steal_of_pinned (pinned : context → Bool) (w : work_stealing)
    (c : context) (h : w.rqueue_.holds [some c]) (hp : pinned c = true) :
    w.steal pinned = some (none, w) := by
  simp only [work_stealing.steal, w.rqueue_.steal_holds_pinned pinned c [] h hp,
    Option.bind_eq_bind, Option.some_bind]

theorem work_stealing.steal_of_free (pinned : context → Bool) (w : work_stealing)
    (c : context) (h : w.rqueue_.holds [some c]) (hp : pinned c = false) :
    ∃ rq, w.steal pinned = some (some c, { w with rqueue_ := rq }) ∧ rq.holds [] := by
  obtain ⟨rq, h1, h2, -⟩ := w.rqueue_.steal_holds_free pinned c [] h hp
  refine ⟨rq, ?_, h2⟩
  simp only [work_stealing.steal, h1, Option.bind_eq_bind, Option.some_bind]

/-- The `pick_next` of a worker whose own deque is empty is the scan over its peers. -/
theorem work_stealing.pick_next_of_empty (pinned : context → Bool)
    (roster : List work_stealing) (i : Nat) (w : work_stealing) (hw : roster[i]? = some w)
    (h : w.rqueue_.holds []) :
    work_stealing.pick_next pinned roster i
      = work_stealing.steal_from_peers pinned (work_stealing.peer_order i roster.length)
          roster := by
  simp only [work_stealing.pick_next, hw, Option.bind_eq_bind, Option.some_bind,
    w.rqueue_.buffer_pop_holds_nil h]
  rw [set_of_getElem? roster i w hw]

/-- What `awakened` does to a roster whose deque `j` is empty. -/
theorem work_stealing.awakened_of_empty (roster : List work_stealing) (j : Nat)
    (c : context) (w : work_stealing) (hw : roster[j]? = some w) (h : w.rqueue_.holds []) :
    ∃ rq, work_stealing.awakened roster j c = some (roster.set j { w with rqueue_ := rq }) ∧
      rq.holds [some c] := by
  obtain ⟨rq, h1, h2⟩ := w.rqueue_.buffer_push_holds [] (some c) h
  refine ⟨rq, ?_, by simpa using h2⟩
  simp only [work_stealing.awakened, hw, Option.bind_eq_bind, Option.some_bind, h1]

/-- Claim C15, counterexample.  With two workers whose deques are empty, the pinned handle
7 is pushed onto the deque of worker 1; the following `pick_next` of worker 0 returns
null, not the pushed handle, and leaves the roster as it was. -/
theorem pick_next_skips_pinned_handle :
    ∃ roster',
      work_stealing.awakened (work_stealing.roster 4 2) 1 7 = some roster' ∧
      (fun c => c == 7) 7 = true ∧
      work_stealing.pick_next (fun c => c == 7) roster' 0 = some (none, roster') ∧
      work_stealing.pick_next (fun c => c == 7) roster' 0 ≠ some (some 7, roster') :=
  ⟨_, rfl, rfl, by decide, by decide⟩

/-- Claim C15, amended.  `pick_next` on an instance whose local deque and whose peers'
deques are all empty returns null.  When a handle is then pushed onto the deque of a
peer, a subsequent `pick_next` on the first instance returns that handle if the handle
is not pinned, leaving all deques empty again; if the handle is pinned, `pick_next`
returns null and the handle stays on the deque of the peer. -/
theorem pick_next_returns_stealable_handle (pinned : context → Bool)
    (roster : List work_stealing) (i j : Nat) (c : context)
    (hi : i < roster.length) (hj : j < roster.length) (hij : i ≠ j)
    (hempty : ∀ w ∈ roster, w.rqueue_.holds []) :
    work_stealing.pick_next pinned roster i = some (none, roster) ∧
    ∃ roster', work_stealing.awakened roster j c = some roster' ∧
      (pinned c = false →
        ∃ roster'', work_stealing.pick_next pinned roster' i = some (some c, roster'') ∧
          ∀ w ∈ roster'', w.rqueue_.holds []) ∧
      (pinned c = true →
        work_stealing.pick_next pinned roster' i = some (none, roster')) := by
  have hget : ∀ k, k < roster.length →
      ∃ w, roster[k]? = some w ∧ w.rqueue_.holds [] := fun k hk =>
    ⟨roster[k], List.getElem?_eq_getElem hk, hempty _ (List.getElem_mem hk)⟩
  obtain ⟨wi, hwi, hqi⟩ := hget i hi
  obtain ⟨wj, hwj, hqj⟩ := hget j hj
  constructor
  · rw [work_stealing.pick_next_of_empty pinned roster i wi hwi hqi]
    apply work_stealing.steal_from_peers_null
    intro k hk
    obtain ⟨w, hw, hq⟩ := hget k ((work_stealing.mem_peer_order i _ k).mp hk).1
    exact ⟨w, hw, w.steal_of_empty pinned hq⟩
  · obtain ⟨rq, ha, hrq⟩ := work_stealing.awakened_of_empty roster j c wj hwj hqj
    refine ⟨_, ha, ?_, ?_⟩
    · intro hp
      have hwi' : (roster.set j { wj with rqueue_ := rq })[i]? = some wi := by
        rw [List.getElem?_set_ne (fun e => hij e.symm)]; exact hwi
      have hwj' : (roster.set j { wj with rqueue_ := rq })[j]?
          = some { wj with rqueue_ := rq } := List.getElem?_set_self hj
      obtain ⟨rq2, hs, hrq2⟩ :=
        work_stealing.steal_of_free pinned { wj with rqueue_ := rq } c hrq hp
      rw [work_stealing.pick_next_of_empty pinned _ i wi hwi' hqi]
      refine ⟨_, work_stealing.steal_from_peers_found pinned j c _ _ _ _ ?_ hwj' hs ?_, ?_⟩
      · rw [work_stealing.mem_peer_order]
        exact ⟨by rw [List.length_set]; exact hj, fun e => hij e.symm⟩
      · intro k hk hkj
        have hk' := (work_stealing.mem_peer_order i _ k).mp hk
        rw [List.length_set] at hk'
        obtain ⟨w, hw, hq⟩ := hget k hk'.1
        refine ⟨w, ?_, w.steal_of_empty pinned hq⟩
        rw [List.getElem?_set_ne (fun e => hkj e.symm)]; exact hw
      · intro w hw
        rw [List.set_set] at hw
        rcases List.mem_or_eq_of_mem_set hw with h1 | h1
        · exact hempty w h1
        · rw [h1]; exact hrq2
    · intro hp
      have hwi' : (roster.set j { wj with rqueue_ := rq })[i]? = some wi := by
        rw [List.getElem?_set_ne (fun e => hij e.symm)]; exact hwi
      rw [work_stealing.pick_next_of_empty pinned _ i wi hwi' hqi]
      apply work_stealing.steal_from_peers_null
      intro k hk
      have hk' := (work_stealing.mem_peer_order i _ k).mp hk
      rw [List.length_set] at hk'
      by_cases hkj : k = j
      · subst hkj
        exact ⟨_, List.getElem?_set_self hj,
          work_stealing.steal_of_pinned pinned _ c hrq hp⟩
      · obtain ⟨w, hw, hq⟩ := hget k hk'.1
        refine ⟨w, ?_, w.steal_of_empty pinned hq⟩
        rw [List.getElem?_set_ne (fun e => hkj e.symm)]; exact hw

theorem pick_next_returns_stealable_handle_witness :
    (0 < (work_stealing.roster 4 3).length ∧ 2 < (work_stealing.roster 4 3).length ∧
      0 ≠ 2 ∧ ∀ w ∈ work_stealing.roster 4 3, w.rqueue_.holds []) ∧
    work_stealing.pick_next (fun c => c == 7) (work_stealing.roster 4 3) 0
      = some (none, work_stealing.roster 4 3) ∧
    ∃ roster', work_stealing.awakened (work_stealing.roster 4 3) 2 5 = some roster' ∧
      ((fun c => c == 7) 5 = false →
        ∃ roster'', work_stealing.pick_next (fun c => c == 7) roster' 0
            = some (some 5, roster'') ∧
          ∀ w ∈ roster'', w.rqueue_.holds []) ∧
      ((fun c => c == 7) 5 = true →
        work_stealing.pick_next (fun c => c == 7) roster' 0 = some (none, roster')) :=
  ⟨⟨by decide, by decide, by decide, by decide⟩,
   pick_next_returns_stealable_handle (fun c => c == 7) (work_stealing.roster 4 3) 0 2 5
     (by decide) (by decide) (by decide) (by decide)⟩

end Fiber
